import Mathlib

/-
Verification development for the paper-translation PDF tool
(`generate_pdf.py`).  Strings are modelled as `List Char`; Python regular
expressions are modelled by deterministic, structurally recursive scanners
that implement exactly the backtracking behaviour of the concrete patterns
used in the source (all of which are deterministic because the greedy and
non-greedy pieces have disjoint follow sets).  Python `re` classes `\d` and
`\s` are modelled by their ASCII parts, which is exact on the ASCII inputs
the tool works on.  External collaborators (the markdown converter, the
headless browser, the PDF library) are modelled as oracles, as the
specification treats them as black boxes.  Geometry is modelled over `ℚ`:
the source computes the float expressions literally written below.
-/

namespace CCPaper

/-! ### Decimal digit rendering, modelling Python `f"{n:04d}"` -/

/-- Character for one decimal digit value. -/
def digitChar (n : Nat) : Char := Char.ofNat (48 + n)

/-- Decimal digits of `n`, most significant first; fuel-driven so it is
structurally recursive (fuel `n+1` always suffices). -/
def natDigitsF : Nat → Nat → List Char
  | 0, _ => []
  | fuel+1, n => if n < 10 then [digitChar n] else natDigitsF fuel (n / 10) ++ [digitChar (n % 10)]

/-- Decimal representation of `n`. -/
def natDigits (n : Nat) : List Char := natDigitsF (n+1) n

/-- Python `f"{n:04d}"`: zero-pad the decimal representation to width 4. -/
def pad4 (n : Nat) : List Char :=
  List.replicate (4 - (natDigits n).length) '0' ++ natDigits n

/-! ### The math-protection codec (`protect_math` / `restore_math`)

`protect_math` performs
  `re.sub(r'\$\$(.+?)\$\$', block, text, flags=re.DOTALL)`
followed by
  `re.sub(r'(?<!\$)\$(?!\$)(.+?)\$(?!\$)', inline, text)`,
replacing each match by `f"MATHBLOCK{c:04d}"` / `f"MATHINLINE{c:04d}"`
with one shared counter, and recording `key ↦ m.group(0)` in insertion
order.  `restore_math` runs `str.replace(key, original)` over the table in
insertion order. -/

def mathBlockStr : List Char := "MATHBLOCK".toList

def mathInlineStr : List Char := "MATHINLINE".toList

def blockKey (n : Nat) : List Char := mathBlockStr ++ pad4 n

def inlineKey (n : Nat) : List Char := mathInlineStr ++ pad4 n

/-- Search for the closing `$$` of a block-math span: the regex content
`(.+?)` is non-greedy, so the match uses the earliest `$$` preceded by at
least one content character (DOTALL: any character).  Returns the captured
content and the input remaining after the closing `$$`. -/
def findBlockClose (acc : List Char) : List Char → Option (List Char × List Char)
  | [] => none
  | c :: rest =>
    if c = '$' ∧ rest.head? = some '$' then
      if acc.isEmpty then findBlockClose ('$' :: acc) rest
      else some (acc.reverse, rest.tail)
    else findBlockClose (c :: acc) rest

/-- Search for the closing `$` of an inline-math span: content characters
are any characters except `'\n'` (no DOTALL); a closing `$` must not be
followed by another `$` (the `(?!\$)` lookahead), otherwise that `$` is
consumed as content (non-greedy backtracking). -/
def findInlineClose (acc : List Char) : List Char → Option (List Char × List Char)
  | [] => none
  | c :: rest =>
    if c = '$' then
      if rest.head? = some '$' then findInlineClose ('$' :: acc) rest
      else if acc.isEmpty then none else some (acc.reverse, rest)
    else if c = '\n' then none
    else findInlineClose (c :: acc) rest

/-- First `re.sub` pass of `protect_math`.  `skip` consumes characters of
a just-replaced match (the scan resumes after the match, exactly as
`re.sub` does); at `skip = 0` the scanner attempts a match at the current
position, advancing one character on failure.  Returns the rewritten text,
the recorded `(key, group(0))` pairs in match order and the final counter. -/
def blockGo : Nat → Nat → List Char → List Char × List (List Char × List Char) × Nat
  | cnt, _, [] => ([], [], cnt)
  | cnt, sk+1, _ :: rest => blockGo cnt sk rest
  | cnt, 0, c :: rest =>
    if c = '$' ∧ rest.head? = some '$' then
      match findBlockClose [] rest.tail with
      | some (content, _) =>
        let r := blockGo (cnt+1) (content.length + 3) rest
        (blockKey cnt ++ r.1, (blockKey cnt, '$' :: '$' :: (content ++ ['$', '$'])) :: r.2.1, r.2.2)
      | none =>
        let r := blockGo cnt 0 rest
        ('$' :: r.1, r.2.1, r.2.2)
    else
      let r := blockGo cnt 0 rest
      (c :: r.1, r.2.1, r.2.2)

/-- Second `re.sub` pass of `protect_math`.  `prev` is the previous
character of the *original* text (for the `(?<!\$)` lookbehind; `none` at
the start of the text); `skip` as in `blockGo`. -/
def inlineGo : Nat → Option Char → Nat → List Char → List Char × List (List Char × List Char) × Nat
  | cnt, _, _, [] => ([], [], cnt)
  | cnt, _, sk+1, c :: rest => inlineGo cnt (some c) sk rest
  | cnt, prev, 0, c :: rest =>
    if c = '$' ∧ prev ≠ some '$' ∧ rest.head? ≠ some '$' then
      match findInlineClose [] rest with
      | some (content, _) =>
        let r := inlineGo (cnt+1) (some '$') (content.length + 1) rest
        (inlineKey cnt ++ r.1, (inlineKey cnt, '$' :: (content ++ ['$'])) :: r.2.1, r.2.2)
      | none =>
        let r := inlineGo cnt (some c) 0 rest
        (c :: r.1, r.2.1, r.2.2)
    else
      let r := inlineGo cnt (some c) 0 rest
      (c :: r.1, r.2.1, r.2.2)

/-- Python `str.replace(pat, rep)`: replace every occurrence, scanning
left to right, non-overlapping (the scan resumes after a replacement).
The source only ever calls it with the nonempty placeholder keys. -/
def pyReplace (pat rep : List Char) : Nat → List Char → List Char
  | _, [] => []
  | sk+1, _ :: rest => pyReplace pat rep sk rest
  | 0, c :: rest =>
    if pat.isPrefixOf (c :: rest) ∧ ¬ pat.isEmpty then
      rep ++ pyReplace pat rep (pat.length - 1) rest
    else
      c :: pyReplace pat rep 0 rest

/-- `protect_math(md_text)`: block pass, then inline pass continuing the
same counter; the table holds the block entries then the inline entries,
in insertion (= match) order, like the Python dict. -/
def protect_math (md_text : List Char) : List Char × List (List Char × List Char) :=
  let b := blockGo 0 0 md_text
  let i := inlineGo b.2.2 none 0 b.1
  (i.1, b.2.1 ++ i.2.1)

/-- `restore_math(html_text, placeholders)`: literal substitution of every
token back to its original captured text, in table order. -/
def restore_math (html_text : List Char) (placeholders : List (List Char × List Char)) : List Char :=
  placeholders.foldl (fun t kv => pyReplace kv.1 kv.2 0 t) html_text

/-! ### The translation merger (`merge_translations`)

`merge_translations` concatenates the fragment files (in sorted filename
order, each followed by `"\n"`), splits on
`re.split(r'<!--\s*PAGE\s+(\d+)\s*-->', all_text)` and then walks the
parts with `idx = 1; while idx < len(parts) - 1: pages[int(parts[idx])] =
parts[idx+1].strip(); idx += 2`.  The filesystem is modelled by passing
the file contents already in sorted order. -/

/-- ASCII part of Python `\s` / `str.strip()` whitespace. -/
def isWS (c : Char) : Bool :=
  c = ' ' ∨ c = '\t' ∨ c = '\n' ∨ c = '\r' ∨ c = '\x0b' ∨ c = '\x0c'

/-- ASCII part of Python `\d`. -/
def isDigitCh (c : Char) : Bool := '0' ≤ c ∧ c ≤ '9'

/-- Consume an exact literal. -/
def eatLit : List Char → List Char → Option (List Char)
  | [], s => some s
  | _ :: _, [] => none
  | p :: ps, c :: s => if c = p then eatLit ps s else none

/-- Greedy `\s*` (deterministic: every continuation in the marker pattern
starts with a non-whitespace character). -/
def eatWSStar (s : List Char) : List Char := s.dropWhile (fun c => isWS c)

/-- Greedy `\s+`. -/
def eatWSPlus : List Char → Option (List Char)
  | [] => none
  | c :: s => if isWS c then some (eatWSStar s) else none

/-- Marker opener literal. -/
def markerOpen : List Char := "<!--".toList

/-- Marker `PAGE` literal. -/
def pageLit : List Char := "PAGE".toList

/-- Marker closer literal. -/
def markerClose : List Char := "-->".toList

/-- One attempt of the compiled pattern `<!--\s*PAGE\s+(\d+)\s*-->` at the
current position; on success returns the captured digit group and the
input remaining after the match.  The pattern is deterministic because
whitespace, digits and the literals have pairwise disjoint first
characters at every junction. -/
def matchMarker (s : List Char) : Option (List Char × List Char) :=
  (eatLit markerOpen s).bind fun s1 =>
  (eatLit pageLit (eatWSStar s1)).bind fun s2 =>
  (eatWSPlus s2).bind fun s3 =>
  let ds := s3.takeWhile (fun c => isDigitCh c)
  let s4 := s3.dropWhile (fun c => isDigitCh c)
  if ds.isEmpty then none
  else (eatLit markerClose (eatWSStar s4)).map fun s5 => (ds, s5)

/-- `re.split` scanner: walks the text, emitting the piece before each
match, then the captured group, and finally the piece after the last
match; `skip` consumes the matched characters, `acc` accumulates the
current piece (reversed). -/
def splitGo (acc : List Char) : Nat → List Char → List (List Char)
  | sk+1, _ :: rest => splitGo acc sk rest
  | _, [] => [acc.reverse]
  | 0, c :: rest =>
    match matchMarker (c :: rest) with
    | some (ds, after) =>
      acc.reverse :: ds :: splitGo [] ((c :: rest).length - after.length - 1) rest
    | none => splitGo (c :: acc) 0 rest

/-- `re.split(r'<!--\s*PAGE\s+(\d+)\s*-->', s)`. -/
def reSplitMarker (s : List Char) : List (List Char) := splitGo [] 0 s

/-- Python `int()` on a digit string. -/
def parseNat (ds : List Char) : Nat := ds.foldl (fun a c => 10 * a + (c.toNat - 48)) 0

/-- Python `str.strip()` (ASCII whitespace). -/
def pyStrip (s : List Char) : List Char :=
  ((s.dropWhile (fun c => isWS c)).reverse.dropWhile (fun c => isWS c)).reverse

/-- Python dict lookup. -/
def dictLookup (d : List (Nat × List Char)) (k : Nat) : Option (List Char) :=
  (d.find? (fun p => p.1 = k)).map (fun p => p.2)

/-- Python dict assignment `d[k] = v`: overwrite in place if the key
exists (keeping its position), else append. -/
def dictUpd (d : List (Nat × List Char)) (k : Nat) (v : List Char) : List (Nat × List Char) :=
  if d.any (fun p => p.1 = k) then d.map (fun p => if p.1 = k then (k, v) else p)
  else d ++ [(k, v)]

/-- The `while idx < len(parts) - 1` loop over the split parts (with
`parts[0]`, the piece before the first marker, already dropped): store
`(int(number), content.strip())` pairs; a dangling number with no
following part would be dropped by the loop bound. -/
def buildPages (d : List (Nat × List Char)) : List (List Char) → List (Nat × List Char)
  | ds :: content :: rest => buildPages (dictUpd d (parseNat ds) (pyStrip content)) rest
  | _ => d

/-- `merge_translations`, taking the fragment file contents in sorted
filename order: returns `{}` if there are no files, else concatenates the
contents (each plus `"\n"`), splits on the marker pattern and pairs the
groups. -/
def merge_translations (files : List (List Char)) : List (Nat × List Char) :=
  if files.isEmpty then []
  else buildPages [] (reSplitMarker ((files.map (fun f => f ++ ['\n'])).flatten)).tail

/-! #### Structured fragment texts

To state what the merger stores, fragment texts are described as a
leading piece followed by marker/content blocks.  Contents are restricted
to `'<'`-free text, which guarantees no marker (and no partial marker
junk) hides inside or straddles a content block. -/

/-- A syntactically well-formed `<!--\s*PAGE\s+(\d+)\s*-->` marker:
`<!--`, whitespace `w1`, `PAGE`, whitespace `w2` (nonempty), digits `ds`
(nonempty), whitespace `w3`, `-->`. -/
structure Marker where
  w1 : List Char
  w2 : List Char
  ds : List Char
  w3 : List Char
deriving DecidableEq, Repr

/-- The marker's text. -/
def Marker.render (m : Marker) : List Char :=
  markerOpen ++ m.w1 ++ pageLit ++ m.w2 ++ m.ds ++ m.w3 ++ markerClose

/-- Well-formedness of the marker fields. -/
def Marker.wf (m : Marker) : Bool :=
  m.w1.all (fun c => isWS c) && m.w2.all (fun c => isWS c) && !m.w2.isEmpty &&
    m.ds.all (fun c => isDigitCh c) && !m.ds.isEmpty && m.w3.all (fun c => isWS c)

/-- `'<'`-free text (cannot start or continue a marker). -/
def noLt (s : List Char) : Bool := s.all (fun ch => ch ≠ '<')

/-- Text of a marker/content block list. -/
def renderBody : List (Marker × List Char) → List Char
  | [] => []
  | (m, c) :: rest => m.render ++ (c ++ renderBody rest)

/-- Well-formedness of a block list. -/
def bodyWF : List (Marker × List Char) → Bool
  | [] => true
  | (m, c) :: rest => m.wf && noLt c && bodyWF rest

/-- The split parts contributed by the blocks (digit group, then the
content up to the next marker or the end of the text). -/
def bodyParts : List (Marker × List Char) → List (List Char)
  | [] => []
  | (m, c) :: rest => m.ds :: c :: bodyParts rest

/-- The `(number, stripped content)` pair of each block. -/
def pairsOf (body : List (Marker × List Char)) : List (Nat × List Char) :=
  body.map (fun mc => (parseNat mc.1.ds, pyStrip mc.2))

/-- Folding pairs into a dict: the later occurrence of a key overwrites
the earlier one. -/
def lastWins (ps : List (Nat × List Char)) : List (Nat × List Char) :=
  ps.foldl (fun d p => dictUpd d p.1 p.2) []

/-! ### The spread composer (`generate_aligned_pdf`) and geometry

The composer walks `pg_num in range(1, src_n + 1)`; a translated page is
rendered (markdown → HTML → headless browser → PDF, modelled as one
oracle `render : content ↦ Except Unit (page count)`, since that pipeline
is deterministic in the fragment content and external to this code) and
copied page by page next to the scaled source page.  Events record the
resource actions of the source, in program order. -/

/-- A4 page width in points (the float literal `595.28` of the source). -/
def PAGE_W : ℚ := 59528 / 100

/-- A4 page height in points (the float literal `841.89`). -/
def PAGE_H : ℚ := 84189 / 100

/-- `_place_src`: uniform scale `min(PAGE_W/w, PAGE_H/h)`, centred; the
result is the rectangle `(ox, oy, ox+sw, oy+sh)` passed to
`show_pdf_page`. -/
def place_src (w h : ℚ) : ℚ × ℚ × ℚ × ℚ :=
  let sx := PAGE_W / w
  let sy := PAGE_H / h
  let s := min sx sy
  let sw := w * s
  let sh := h * s
  let ox := (PAGE_W - sw) / 2
  let oy := (PAGE_H - sh) / 2
  (ox, oy, ox + sw, oy + sh)

/-- One page of the output document: index of the source page shown on
the left, its placement rectangle, the rendered-translation page index
shown on the right (`none` = blank right half), and the footer page
number drawn by `_divider`. -/
structure SpreadPage where
  srcIdx : Nat
  leftRect : ℚ × ℚ × ℚ × ℚ
  right : Option Nat
  footer : Nat
deriving DecidableEq, Repr

/-- Resource events of one document's composition, in program order. -/
inductive Ev where
  | openSrc | openOut
  | writeHtml (pg : Nat) | renderCall (pg : Nat) | unlinkHtml (pg : Nat)
  | openTrans (pg : Nat) | closeTrans (pg : Nat) | unlinkTmpPdf (pg : Nat)
  | saveOut | closeOut | closeSrc
deriving DecidableEq, Repr

/-- The group of SpreadPages emitted for one translated source page
`pg` whose rendered translation has `k` pages: the first spread shows
rendered page 0, then one overflow spread per `tp in range(1, k)`,
each repeating the same scaled source page and footer. -/
def spreadsFor (dims : ℚ × ℚ) (pg k : Nat) : List SpreadPage :=
  ⟨pg - 1, place_src dims.1 dims.2, some 0, pg⟩ ::
    (List.range (k - 1)).map (fun tp => ⟨pg - 1, place_src dims.1 dims.2, some (tp + 1), pg⟩)

/-- The single SpreadPage emitted for an untranslated source page. -/
def blankSpread (dims : ℚ × ℚ) (pg : Nat) : SpreadPage :=
  ⟨pg - 1, place_src dims.1 dims.2, none, pg⟩

/-- Width/height of source page `pg` (1-based; the loop only asks for
`pg ∈ 1..N`, which is always in range). -/
def dimsAt (dims : List (ℚ × ℚ)) (pg : Nat) : ℚ × ℚ := dims.getD (pg - 1) (0, 0)

/-- The `for pg_num in range(1, src_n + 1)` loop.  For a translated page:
`render_html_to_pdf` writes a temp HTML file, calls the browser and
deletes the HTML file in a `finally:`; then the rendered PDF is opened,
copied and deleted.  A failing render raises after the `finally:`, so the
loop stops with the events so far (HTML deleted, nothing else). -/
def composeLoop (render : List Char → Except Unit Nat) (dims : List (ℚ × ℚ))
    (dict : List (Nat × List Char)) :
    List Nat → List Ev × Except Unit (List SpreadPage)
  | [] => ([], Except.ok [])
  | pg :: rest =>
    match dictLookup dict pg with
    | some content =>
      match render content with
      | Except.ok k =>
        let r := composeLoop render dims dict rest
        ([Ev.writeHtml pg, Ev.renderCall pg, Ev.unlinkHtml pg,
          Ev.openTrans pg, Ev.closeTrans pg, Ev.unlinkTmpPdf pg] ++ r.1,
         r.2.map (fun pages => spreadsFor (dimsAt dims pg) pg k ++ pages))
      | Except.error e =>
        ([Ev.writeHtml pg, Ev.renderCall pg, Ev.unlinkHtml pg], Except.error e)
    | none =>
      let r := composeLoop render dims dict rest
      (r.1, r.2.map (fun pages => blankSpread (dimsAt dims pg) pg :: pages))

/-- The page numbers `1..N` of the source document. -/
def pageNums (n : Nat) : List Nat := (List.range n).map (fun i => i + 1)

/-- `generate_aligned_pdf`: merge the fragment files; if the map is empty
return before opening the source PDF (no output document); otherwise open
the source and the output, run the page loop and, on success, save and
close both.  On a render failure the exception propagates: no save, no
close (there is no `finally:` around the loop). -/
def generate_aligned_pdf (render : List Char → Except Unit Nat) (dims : List (ℚ × ℚ))
    (files : List (List Char)) : List Ev × Except Unit (Option (List SpreadPage)) :=
  let dict := merge_translations files
  if dict.isEmpty then ([], Except.ok none)
  else
    let r := composeLoop render dims dict (pageNums dims.length)
    match r.2 with
    | Except.ok pages =>
      ([Ev.openSrc, Ev.openOut] ++ r.1 ++ [Ev.saveOut, Ev.closeOut, Ev.closeSrc],
       Except.ok (some pages))
    | Except.error e => ([Ev.openSrc, Ev.openOut] ++ r.1, Except.error e)

/-- Derived description of the SpreadPages the loop emits for one source
page (used to state the loop's specification). -/
def groupOf (render : List Char → Except Unit Nat) (dims : List (ℚ × ℚ))
    (dict : List (Nat × List Char)) (pg : Nat) : List SpreadPage :=
  match dictLookup dict pg with
  | some content =>
    match render content with
    | Except.ok k => spreadsFor (dimsAt dims pg) pg k
    | Except.error _ => []
  | none => [blankSpread (dimsAt dims pg) pg]

/-- One document of a batch: whether its PDF file exists, its page
dimensions, and its translation fragment files. -/
structure DocSpec where
  hasPdf : Bool
  dims : List (ℚ × ℚ)
  files : List (List Char)

/-- The `dual` branch of `main`: for every discovered paper, skip it when
the PDF or the fragment files are missing, otherwise run
`generate_aligned_pdf` inside `try/except` — an exception is printed and
the loop continues with the next document. -/
def mainDual (render : List Char → Except Unit Nat) (docs : List DocSpec) :
    List (Option (List Ev × Except Unit (Option (List SpreadPage)))) :=
  docs.map (fun d =>
    if d.hasPdf = false ∨ d.files.isEmpty then none
    else some (generate_aligned_pdf render d.dims d.files))

/-! ### Concrete instances used by witnesses and counterexamples -/

instance instDecEqExcept {ε α : Type} [DecidableEq ε] [DecidableEq α] :
    DecidableEq (Except ε α) := fun a b =>
  match a, b with
  | Except.ok x, Except.ok y =>
    if h : x = y then isTrue (by rw [h]) else isFalse (by intro hc; cases hc; exact h rfl)
  | Except.error e, Except.error f =>
    if h : e = f then isTrue (by rw [h]) else isFalse (by intro hc; cases hc; exact h rfl)
  | Except.ok _, Except.error _ => isFalse (by intro hc; cases hc)
  | Except.error _, Except.ok _ => isFalse (by intro hc; cases hc)

/-- A render oracle that always succeeds with a one-page PDF. -/
def renderOne : List Char → Except Unit Nat := fun _ => Except.ok 1

/-- A render oracle that always fails (browser error). -/
def renderFail : List Char → Except Unit Nat := fun _ => Except.error ()

/-- A five-page source document of 400×800 pages. -/
def dims5 : List (ℚ × ℚ) := List.replicate 5 (400, 800)

/-- Fragment files covering pages 2 and 4 of a five-page source. -/
def files24 : List (List Char) := [ "<!-- PAGE 2 -->two<!-- PAGE 4 -->four".toList]

/-- A fragment file with no page markers. -/
def filesNoMarker : List (List Char) := [ "no markers at all".toList]

/-- The spec scenario `<!-- PAGE 3 -->body A<!-- PAGE 3 -->body B`. -/
def filesDup3 : List (List Char) := [ "<!-- PAGE 3 -->body A<!-- PAGE 3 -->body B".toList]

/-- A fragment file whose only marker carries page number 0. -/
def filesPage0 : List (List Char) := [ "<!-- PAGE 0 -->x".toList]

/-- A fragment file whose only marker is followed by trailing content and
no further marker. -/
def filesTail : List (List Char) := [ "<!-- PAGE 7 -->tail".toList]

/-- The marker `<!-- PAGE 7 -->`. -/
def mk7 : Marker := ⟨[' '], [' '], ['7'], [' ']⟩

/-- The marker `<!-- PAGE 3 -->`. -/
def mk3 : Marker := ⟨[' '], [' '], ['3'], [' ']⟩

/-- The marker `<!-- PAGE 0 -->`. -/
def mk0 : Marker := ⟨[' '], [' '], ['0'], [' ']⟩

/-- A one-page source document. -/
def dims1 : List (ℚ × ℚ) := [(400, 800)]

/-- Fragments translating page 1 with content `two`. -/
def filesF : List (List Char) := [ "<!-- PAGE 1 -->two".toList]

/-- Fragments translating page 1 with content `four`. -/
def filesO : List (List Char) := [ "<!-- PAGE 1 -->four".toList]

/-- A render oracle whose browser call fails exactly on content `two`. -/
def renderPicky : List Char → Except Unit Nat := fun c =>
  if c = "two".toList then Except.error () else Except.ok 1

/-! ### Structured math texts, for the codec's round-trip

A text is described as a sequence of chunks: literal text, block-math
spans `$$c$$` and inline-math spans `$c$`.  Well-formedness restricts the
class so that the two regex passes match exactly the spans: literals are
`'$'`-free, inline contents are `'$'`- and newline-free, block contents
contain no `$$` and do not end in `'$'`, no chunk contains the substring
`MATH` (which the placeholder keys start with), literals are nonempty and
not adjacent to each other, and an inline span is always followed by a
literal (the regexes misparse inline spans directly adjacent to a
following span — see the counterexample). -/

inductive Chunk where
  | lit (s : List Char)
  | blockM (c : List Char)
  | inlineM (c : List Char)
deriving DecidableEq, Repr

/-- The text of one chunk. -/
def Chunk.render : Chunk → List Char
  | Chunk.lit s => s
  | Chunk.blockM c => '$' :: '$' :: (c ++ ['$', '$'])
  | Chunk.inlineM c => '$' :: (c ++ ['$'])

/-- The text of a chunk list. -/
def renderChunks (cs : List Chunk) : List Char := (cs.map Chunk.render).flatten

/-- `'$'`-free text. -/
def noDollar (s : List Char) : Bool := s.all (fun c => c ≠ '$')

/-- The four characters every placeholder key starts with. -/
def mathL : List Char := "MATH".toList

/-- Executable substring test. -/
def hasInfix (pat : List Char) : List Char → Bool
  | [] => pat.isEmpty
  | c :: rest => pat.isPrefixOf (c :: rest) || hasInfix pat rest

/-- Text free of the substring `MATH`. -/
def mathFree (s : List Char) : Bool := ! hasInfix mathL s

/-- Well-formedness of a single chunk. -/
def chunkWF : Chunk → Bool
  | Chunk.lit s => !s.isEmpty && noDollar s && mathFree s
  | Chunk.blockM c =>
    !c.isEmpty && !(hasInfix ['$', '$'] c) && !(c.getLast? = some '$') && mathFree c
  | Chunk.inlineM c => !c.isEmpty && noDollar c && c.all (fun ch => ch ≠ '\n') && mathFree c

/-- Separation discipline: an inline span is followed by a literal (or
ends the text), and two literals are never adjacent. -/
def sepOK : List Chunk → Bool
  | [] => true
  | Chunk.inlineM _ :: next :: rest =>
    (match next with | Chunk.lit _ => true | _ => false) && sepOK (next :: rest)
  | Chunk.lit _ :: next :: rest =>
    (match next with | Chunk.lit _ => false | _ => true) && sepOK (next :: rest)
  | _ :: rest => sepOK rest

/-- Number of block-math chunks. -/
def blockCount : List Chunk → Nat
  | [] => 0
  | Chunk.blockM _ :: rest => blockCount rest + 1
  | _ :: rest => blockCount rest

/-- Number of inline-math chunks. -/
def inlineCount : List Chunk → Nat
  | [] => 0
  | Chunk.inlineM _ :: rest => inlineCount rest + 1
  | _ :: rest => inlineCount rest

/-- Overall well-formedness of a structured math text. -/
def wfChunks (cs : List Chunk) : Bool :=
  cs.all chunkWF && sepOK cs && decide (blockCount cs + inlineCount cs ≤ 10000)

/-- The text after the block pass: block spans replaced by their keys,
numbered from `b` in order. -/
def midRender : Nat → List Chunk → List Char
  | _, [] => []
  | b, Chunk.lit s :: rest => s ++ midRender b rest
  | b, Chunk.blockM _ :: rest => blockKey b ++ midRender (b+1) rest
  | b, Chunk.inlineM c :: rest => ('$' :: (c ++ ['$'])) ++ midRender b rest

/-- The table recorded by the block pass. -/
def blockTable : Nat → List Chunk → List (List Char × List Char)
  | _, [] => []
  | b, Chunk.lit _ :: rest => blockTable b rest
  | b, Chunk.blockM c :: rest =>
    (blockKey b, '$' :: '$' :: (c ++ ['$', '$'])) :: blockTable (b+1) rest
  | b, Chunk.inlineM _ :: rest => blockTable b rest

/-- The text after both passes: all spans replaced by keys. -/
def protRender : Nat → Nat → List Chunk → List Char
  | _, _, [] => []
  | b, i, Chunk.lit s :: rest => s ++ protRender b i rest
  | b, i, Chunk.blockM _ :: rest => blockKey b ++ protRender (b+1) i rest
  | b, i, Chunk.inlineM _ :: rest => inlineKey i ++ protRender b (i+1) rest

/-- The table recorded by the inline pass. -/
def inlineTable : Nat → List Chunk → List (List Char × List Char)
  | _, [] => []
  | i, Chunk.lit _ :: rest => inlineTable i rest
  | i, Chunk.blockM _ :: rest => inlineTable i rest
  | i, Chunk.inlineM c :: rest => (inlineKey i, '$' :: (c ++ ['$'])) :: inlineTable (i+1) rest

/-- Intermediate restore states: spans with block index `< bt` (resp.
inline index `< it`) already restored to their original text, the rest
still placeholder keys.  `b`, `i` number the spans from the left. -/
def stateRender : Nat → Nat → Nat → Nat → List Chunk → List Char
  | _, _, _, _, [] => []
  | b, i, bt, it, Chunk.lit s :: rest => s ++ stateRender b i bt it rest
  | b, i, bt, it, Chunk.blockM c :: rest =>
    (if b < bt then '$' :: '$' :: (c ++ ['$', '$']) else blockKey b) ++
      stateRender (b+1) i bt it rest
  | b, i, bt, it, Chunk.inlineM c :: rest =>
    (if i < it then '$' :: (c ++ ['$']) else inlineKey i) ++
      stateRender b (i+1) bt it rest

/-- The previous-character tracker after scanning `s` (the last character
of `s`, or the incoming value when `s` is empty). -/
def lastPrev (prev : Option Char) (s : List Char) : Option Char :=
  match s.getLast? with
  | some c => some c
  | none => prev

/-- Text whose first character (if any) is a placeholder-key start `M` or
a math delimiter `$` — the shapes that cannot continue a `MATH` straddle. -/
def headMB (y : List Char) : Prop :=
  y.head? = none ∨ y.head? = some 'M' ∨ y.head? = some '$'

/-- The lookbehind constraint the inline pass needs when the next chunk is
an inline span. -/
def prevOK (prev : Option Char) : List Chunk → Prop
  | Chunk.inlineM _ :: _ => prev ≠ some '$'
  | _ => True

/-- Text without the character `M`. -/
def noM (s : List Char) : Prop := ∀ c, c ∈ s → c ≠ 'M'

/-- Content of the `j`-th block-math chunk. -/
def blockContentAt : List Chunk → Nat → List Char
  | [], _ => []
  | Chunk.blockM c :: _, 0 => c
  | Chunk.blockM _ :: rest, j+1 => blockContentAt rest j
  | Chunk.lit _ :: rest, j => blockContentAt rest j
  | Chunk.inlineM _ :: rest, j => blockContentAt rest j

/-- Content of the `j`-th inline-math chunk. -/
def inlineContentAt : List Chunk → Nat → List Char
  | [], _ => []
  | Chunk.inlineM c :: _, 0 => c
  | Chunk.inlineM _ :: rest, j+1 => inlineContentAt rest j
  | Chunk.lit _ :: rest, j => inlineContentAt rest j
  | Chunk.blockM _ :: rest, j => inlineContentAt rest j

/-- The chunk list of the round-trip witness text
`a $$x$$$$y$$ and $z$ end`. -/
def c1chunks : List Chunk :=
  [Chunk.lit ("a ".toList), Chunk.blockM ['x'], Chunk.blockM ['y'],
   Chunk.lit (" and ".toList), Chunk.inlineM ['z'], Chunk.lit (" end".toList)]

/-- Forgetful projection of a run result to the right-half page indices
and the footers (the geometric fields are rational expressions, which the
kernel does not normalise; the blank/filled pattern is what the
concrete scenarios are about). -/
def rightsAndFooters :
    Except Unit (Option (List SpreadPage)) →
      Except Unit (Option (List (Option Nat) × List Nat))
  | Except.ok (some l) =>
    Except.ok (some (l.map SpreadPage.right, l.map SpreadPage.footer))
  | Except.ok none => Except.ok none
  | Except.error e => Except.error e

/-- The pages actually produced by composing `dims5` with `files24`. -/
def c2out : List SpreadPage :=
  match (generate_aligned_pdf renderOne dims5 files24).2 with
  | Except.ok (some l) => l
  | _ => []

/-- A two-page source document. -/
def dims2 : List (ℚ × ℚ) := List.replicate 2 (400, 800)

/-- A translation map with one in-range and one out-of-range key. -/
def dictA : List (Nat × List Char) := [(2, "x".toList), (999, "y".toList)]

/-- The restriction of `dictA` to the valid page numbers. -/
def dictB : List (Nat × List Char) := [(2, "x".toList)]

end CCPaper

namespace CCPaper

/-! Sanity checks of the codec model against the concrete behaviour of the
Python regexes (each checked against CPython's `re`). -/

example : (protect_math ("$a$".toList)).1 = "MATHINLINE0000".toList := by decide

example : (protect_math ("$$a$$".toList)).1 = "MATHBLOCK0000".toList := by decide

example : (protect_math ("$a$$b$".toList)).1 = ("MATHINLINE0000b$".toList) := by decide

example :
    (protect_math ("$x$ and $$y$$ m".toList)).1 =
      ("MATHINLINE0001 and MATHBLOCK0000 m".toList) := by decide

example : (protect_math ("$$$$".toList)).1 = "$$$$".toList := by decide

example :
    restore_math (protect_math ("$x$ and $$y$$ m".toList)).1
        (protect_math ("$x$ and $$y$$ m".toList)).2 = "$x$ and $$y$$ m".toList := by decide

example :
    restore_math (protect_math ("$ $$x$$ $".toList)).1
        (protect_math ("$ $$x$$ $".toList)).2 = "$ MATHBLOCK0000 $".toList := by decide

/-! Sanity checks of the merger model against CPython. -/

example : merge_translations [ "<!-- PAGE 1 -->hello".toList] = [(1, "hello".toList)] := by decide

example : merge_translations [ "pre<!-- PAGE 7 -->tail".toList] = [(7, "tail".toList)] := by decide

example :
    merge_translations [ "<!-- PAGE 3 -->body A<!-- PAGE 3 -->body B".toList] =
      [(3, "body B".toList)] := by decide

example : merge_translations [ "no markers at all".toList] = [] := by decide

example : merge_translations [ "<!--PAGE 5-->y".toList] = [(5, "y".toList)] := by decide

example : merge_translations [ "<!-- PAGE 007 -->x".toList] = [(7, "x".toList)] := by decide

example : merge_translations [ "a<!-- PAGE -->b".toList] = [] := by decide

example : merge_translations [] = [] := by decide

end CCPaper

namespace CCPaper

/-! ### Specification of the compose loop -/

/-- On a successful run the loop's output is the concatenation, in page
order, of the per-page groups. -/
theorem composeLoop_ok_out (render : List Char → Except Unit Nat) (dims : List (ℚ × ℚ))
    (dict : List (Nat × List Char)) :
    ∀ l out, (composeLoop render dims dict l).2 = Except.ok out →
      out = (l.map (groupOf render dims dict)).flatten := by
  intro l
  induction l with
  | nil =>
    intro out h
    simp only [composeLoop] at h
    cases h
    simp
  | cons pg rest ih =>
    intro out h
    simp only [composeLoop] at h
    split at h
    next content hl =>
      split at h
      next k hk =>
        simp only at h
        rcases hr : (composeLoop render dims dict rest).2 with e | pages
        · rw [hr] at h; simp [Except.map] at h
        · rw [hr] at h
          simp only [Except.map, Except.ok.injEq] at h
          subst h
          simp only [List.map_cons, List.flatten_cons, groupOf, hl, hk]
          rw [ih pages hr]
      next e he => simp only at h; cases h
    next hl =>
      simp only at h
      rcases hr : (composeLoop render dims dict rest).2 with e | pages
      · rw [hr] at h; simp [Except.map] at h
      · rw [hr] at h
        simp only [Except.map, Except.ok.injEq] at h
        subst h
        simp only [List.map_cons, List.flatten_cons, groupOf, hl]
        rw [ih pages hr]
        rfl

/-- A successful run implies every translated page in the range rendered
successfully. -/
theorem composeLoop_ok_render (render : List Char → Except Unit Nat) (dims : List (ℚ × ℚ))
    (dict : List (Nat × List Char)) :
    ∀ l out, (composeLoop render dims dict l).2 = Except.ok out →
      ∀ p ∈ l, ∀ c, dictLookup dict p = some c → ∃ k, render c = Except.ok k := by
  intro l
  induction l with
  | nil => intro out _ p hp; simp at hp
  | cons pg rest ih =>
    intro out h p hp c hc
    simp only [composeLoop] at h
    split at h
    next content hl =>
      split at h
      next k hk =>
        simp only at h
        rcases hr : (composeLoop render dims dict rest).2 with e | pages
        · rw [hr] at h; simp [Except.map] at h
        · rcases List.mem_cons.mp hp with rfl | hp'
          · rw [hl] at hc; cases hc; exact ⟨k, hk⟩
          · exact ih pages hr p hp' c hc
      next e he => simp only at h; cases h
    next hl =>
      simp only at h
      rcases hr : (composeLoop render dims dict rest).2 with e | pages
      · rw [hr] at h; simp [Except.map] at h
      · rcases List.mem_cons.mp hp with rfl | hp'
        · rw [hl] at hc; cases hc
        · exact ih pages hr p hp' c hc

/-- Page count of a successful run: at least one output page per source
page, with equality exactly when every translated page in range rendered
to a single page. -/
theorem composeLoop_ok_count (render : List Char → Except Unit Nat) (dims : List (ℚ × ℚ))
    (dict : List (Nat × List Char))
    (hK : ∀ c k, render c = Except.ok k → 1 ≤ k) :
    ∀ l out, (composeLoop render dims dict l).2 = Except.ok out →
      l.length ≤ out.length ∧
        (out.length = l.length ↔
          ∀ p ∈ l, ∀ c, dictLookup dict p = some c → render c = Except.ok 1) := by
  intro l
  induction l with
  | nil =>
    intro out h
    simp only [composeLoop] at h
    cases h
    simp
  | cons pg rest ih =>
    intro out h
    simp only [composeLoop] at h
    split at h
    next content hl =>
      split at h
      next k hk =>
        simp only at h
        rcases hr : (composeLoop render dims dict rest).2 with e | pages
        · rw [hr] at h; simp [Except.map] at h
        · rw [hr] at h
          simp only [Except.map, Except.ok.injEq] at h
          subst h
          rcases ih pages hr with ⟨hle, hiff⟩
          have hk1 : 1 ≤ k := hK content k hk
          have hlen : (spreadsFor (dimsAt dims pg) pg k ++ pages).length = k + pages.length := by
            simp [spreadsFor]
            omega
          rw [hlen]
          simp only [List.length_cons]
          constructor
          · omega
          · constructor
            · intro he p hp c hc
              have hpl : pages.length = rest.length := by omega
              rcases List.mem_cons.mp hp with rfl | hp'
              · rw [hl] at hc
                cases hc
                have hko : k = 1 := by omega
                rw [hko] at hk
                exact hk
              · exact (hiff.mp hpl) p hp' c hc
            · intro hall
              have h1 : render content = Except.ok 1 := hall pg (List.mem_cons_self _ _) content hl
              have hko : k = 1 := by rw [hk] at h1; cases h1; rfl
              have hpl : pages.length = rest.length :=
                hiff.mpr (fun p hp c hc => hall p (List.mem_cons_of_mem _ hp) c hc)
              omega
      next e he => simp only at h; cases h
    next hl =>
      simp only at h
      rcases hr : (composeLoop render dims dict rest).2 with e | pages
      · rw [hr] at h; simp [Except.map] at h
      · rw [hr] at h
        simp only [Except.map, Except.ok.injEq] at h
        subst h
        rcases ih pages hr with ⟨hle, hiff⟩
        simp only [List.length_cons]
        constructor
        · omega
        · constructor
          · intro he p hp c hc
            rcases List.mem_cons.mp hp with rfl | hp'
            · rw [hl] at hc; cases hc
            · exact (hiff.mp (by omega)) p hp' c hc
          · intro hall
            have hpl : pages.length = rest.length :=
              hiff.mpr (fun p hp c hc => hall p (List.mem_cons_of_mem _ hp) c hc)
            simp [hpl]

end CCPaper

namespace CCPaper

/-- Unpacking a successful `generate_aligned_pdf` run to its loop run. -/
theorem generate_ok (render : List Char → Except Unit Nat) (dims : List (ℚ × ℚ))
    (files : List (List Char)) (out : List SpreadPage)
    (hrun : (generate_aligned_pdf render dims files).2 = Except.ok (some out)) :
    (composeLoop render dims (merge_translations files) (pageNums dims.length)).2 =
      Except.ok out := by
  simp only [generate_aligned_pdf] at hrun
  split at hrun
  · simp only [Except.ok.injEq] at hrun
    cases hrun
  · split at hrun
    next pages hp =>
      simp only [Except.ok.injEq, Option.some.injEq] at hrun
      rw [hp, hrun]
    next e hp =>
      simp only at hrun
      cases hrun

/-- All SpreadPages emitted for source page `q` carry footer `q`. -/
theorem groupOf_footer (render : List Char → Except Unit Nat) (dims : List (ℚ × ℚ))
    (dict : List (Nat × List Char)) (q : Nat) :
    ∀ sp ∈ groupOf render dims dict q, sp.footer = q := by
  intro sp hsp
  unfold groupOf at hsp
  split at hsp
  next content hl =>
    split at hsp
    next k hk =>
      simp only [spreadsFor, List.mem_cons, List.mem_map] at hsp
      rcases hsp with rfl | ⟨tp, _, rfl⟩ <;> rfl
    next e hk => simp at hsp
  next hl =>
    simp only [List.mem_singleton] at hsp
    subst hsp
    rfl

/-- Lists with all elements equal are `≤`-sorted. -/
theorem pairwise_le_of_const {l : List Nat} {v : Nat} (h : ∀ x ∈ l, x = v) :
    l.Pairwise (· ≤ ·) := by
  induction l with
  | nil => exact List.Pairwise.nil
  | cons a l ih =>
    refine List.Pairwise.cons ?_ (ih (fun x hx => h x (List.mem_cons_of_mem _ hx)))
    intro b hb
    rw [h a (List.mem_cons_self _ _), h b (List.mem_cons_of_mem _ hb)]

/-- Filtering a footer-grouped concatenation for one present page number
returns exactly that page's group. -/
theorem filter_footer_flatten (f : Nat → List SpreadPage)
    (hf : ∀ q, ∀ sp ∈ f q, sp.footer = q) :
    ∀ (L : List Nat) (p : Nat), L.Nodup → p ∈ L →
      ((L.map f).flatten.filter (fun sp => sp.footer == p)) = f p := by
  intro L
  induction L with
  | nil => intro p _ hp; simp at hp
  | cons q L ih =>
    intro p hnd hp
    have hnd' := (List.nodup_cons.mp hnd).2
    have hqL := (List.nodup_cons.mp hnd).1
    simp only [List.map_cons, List.flatten_cons, List.filter_append]
    rcases List.mem_cons.mp hp with rfl | hp'
    · have h1 : (f p).filter (fun sp => sp.footer == p) = f p := by
        rw [List.filter_eq_self]
        intro sp hsp
        simp [hf p sp hsp]
      have h2 : ((L.map f).flatten.filter (fun sp => sp.footer == p)) = [] := by
        rw [List.filter_eq_nil_iff]
        intro sp hsp
        rcases List.mem_flatten.mp hsp with ⟨l, hl, hspl⟩
        rcases List.mem_map.mp hl with ⟨q', hq', rfl⟩
        have := hf q' sp hspl
        simp only [beq_iff_eq, this]
        intro hc
        exact hqL (hc ▸ hq')
      rw [h1, h2, List.append_nil]
    · have hpq : p ≠ q := fun hc => hqL (hc ▸ hp')
      have h1 : (f q).filter (fun sp => sp.footer == p) = [] := by
        rw [List.filter_eq_nil_iff]
        intro sp hsp
        have := hf q sp hsp
        simp only [beq_iff_eq, this]
        exact fun hc => hpq hc.symm
      rw [h1, List.nil_append]
      exact ih p hnd' hp'

/-- `pageNums n` is the strictly increasing list `1..n`. -/
theorem pairwise_lt_pageNums (n : Nat) : (pageNums n).Pairwise (· < ·) := by
  unfold pageNums
  refine (List.pairwise_map).mpr ?_
  exact (List.pairwise_lt_range n).imp (fun h => by omega)

/-- `pageNums n` has no duplicates. -/
theorem nodup_pageNums (n : Nat) : (pageNums n).Nodup :=
  (pairwise_lt_pageNums n).imp (fun h => by omega)

/-- The right halves of one translated page's group are the rendered page
indices `0..k-1` in order. -/
theorem spreadsFor_rights (d : ℚ × ℚ) (p k : Nat) (hk : 1 ≤ k) :
    (spreadsFor d p k).map SpreadPage.right = (List.range k).map some := by
  obtain ⟨k', rfl⟩ : ∃ k', k = k' + 1 := ⟨k - 1, by omega⟩
  simp only [spreadsFor, Nat.add_sub_cancel, List.map_cons, List.map_map,
    List.range_succ_eq_map]
  congr 1

/-- Every SpreadPage of a translated page's group repeats the same scaled
source page and footer. -/
theorem spreadsFor_left (d : ℚ × ℚ) (p k : Nat) :
    ∀ sp ∈ spreadsFor d p k,
      sp.srcIdx = p - 1 ∧ sp.leftRect = place_src d.1 d.2 ∧ sp.footer = p := by
  intro sp hsp
  simp only [spreadsFor, List.mem_cons, List.mem_map] at hsp
  rcases hsp with rfl | ⟨tp, _, rfl⟩ <;> exact ⟨rfl, rfl, rfl⟩

end CCPaper

namespace CCPaper

/-- Claim C6: for every source page of width `w` and height `h` placed
into a 595.28×841.89 half, `_place_src` computes the uniform scale
`min(595.28/w, 841.89/h)` and places the page at exactly
`((halfWidth - scaledWidth)/2, (height - scaledHeight)/2)`; the scaled
page never exceeds the half (no cropping, nonnegative offsets) and the
aspect ratio is preserved. -/
theorem c6_left_half_scaling (w h : ℚ) (hw : 0 < w) (hh : 0 < h) :
    place_src w h =
      ((PAGE_W - w * min (PAGE_W / w) (PAGE_H / h)) / 2,
       (PAGE_H - h * min (PAGE_W / w) (PAGE_H / h)) / 2,
       (PAGE_W - w * min (PAGE_W / w) (PAGE_H / h)) / 2 + w * min (PAGE_W / w) (PAGE_H / h),
       (PAGE_H - h * min (PAGE_W / w) (PAGE_H / h)) / 2 + h * min (PAGE_W / w) (PAGE_H / h)) ∧
    w * min (PAGE_W / w) (PAGE_H / h) ≤ PAGE_W ∧
    h * min (PAGE_W / w) (PAGE_H / h) ≤ PAGE_H ∧
    0 ≤ (PAGE_W - w * min (PAGE_W / w) (PAGE_H / h)) / 2 ∧
    0 ≤ (PAGE_H - h * min (PAGE_W / w) (PAGE_H / h)) / 2 ∧
    (w * min (PAGE_W / w) (PAGE_H / h)) * h = (h * min (PAGE_W / w) (PAGE_H / h)) * w := by
  have h1 : w * min (PAGE_W / w) (PAGE_H / h) ≤ PAGE_W := by
    calc w * min (PAGE_W / w) (PAGE_H / h) ≤ w * (PAGE_W / w) :=
          mul_le_mul_of_nonneg_left (min_le_left _ _) (le_of_lt hw)
      _ = PAGE_W := by field_simp
  have h2 : h * min (PAGE_W / w) (PAGE_H / h) ≤ PAGE_H := by
    calc h * min (PAGE_W / w) (PAGE_H / h) ≤ h * (PAGE_H / h) :=
          mul_le_mul_of_nonneg_left (min_le_right _ _) (le_of_lt hh)
      _ = PAGE_H := by field_simp
  exact ⟨rfl, h1, h2, by linarith, by linarith, by ring⟩

/-- Witness for C6 at the spec's concrete page size 400×800. -/
theorem c6_left_half_scaling_witness :
    place_src 400 800 =
      ((PAGE_W - 400 * min (PAGE_W / 400) (PAGE_H / 800)) / 2,
       (PAGE_H - 800 * min (PAGE_W / 400) (PAGE_H / 800)) / 2,
       (PAGE_W - 400 * min (PAGE_W / 400) (PAGE_H / 800)) / 2 +
         400 * min (PAGE_W / 400) (PAGE_H / 800),
       (PAGE_H - 800 * min (PAGE_W / 400) (PAGE_H / 800)) / 2 +
         800 * min (PAGE_W / 400) (PAGE_H / 800)) ∧
    400 * min (PAGE_W / 400) (PAGE_H / 800) ≤ PAGE_W ∧
    800 * min (PAGE_W / 400) (PAGE_H / 800) ≤ PAGE_H ∧
    0 ≤ (PAGE_W - 400 * min (PAGE_W / 400) (PAGE_H / 800)) / 2 ∧
    0 ≤ (PAGE_H - 800 * min (PAGE_W / 400) (PAGE_H / 800)) / 2 ∧
    (400 * min (PAGE_W / 400) (PAGE_H / 800)) * 800 =
      (800 * min (PAGE_W / 400) (PAGE_H / 800)) * 400 :=
  c6_left_half_scaling 400 800 (by norm_num) (by norm_num)

/-- Claim C9: with an empty merged translation map, `generate_aligned_pdf`
returns before opening the source PDF: no events at all (in particular no
`openSrc`) and no output document (not `N` blank-right spreads). -/
theorem c9_empty_map_early_return (render : List Char → Except Unit Nat)
    (dims : List (ℚ × ℚ)) (files : List (List Char))
    (h : merge_translations files = []) :
    generate_aligned_pdf render dims files = ([], Except.ok none) ∧
      Ev.openSrc ∉ (generate_aligned_pdf render dims files).1 := by
  have heq : generate_aligned_pdf render dims files = ([], Except.ok none) := by
    simp [generate_aligned_pdf, h]
  exact ⟨heq, by rw [heq]; simp⟩

/-- Witness for C9: a fragment file with no page markers merges to the
empty map and produces no output document. -/
theorem c9_empty_map_early_return_witness :
    generate_aligned_pdf renderOne dims5 filesNoMarker = ([], Except.ok none) ∧
      Ev.openSrc ∉ (generate_aligned_pdf renderOne dims5 filesNoMarker).1 :=
  c9_empty_map_early_return renderOne dims5 filesNoMarker (by decide)

/-- The page loop only consults the translation map through the lookups
of the pages it visits. -/
theorem composeLoop_congr (render : List Char → Except Unit Nat) (dims : List (ℚ × ℚ))
    (d1 d2 : List (Nat × List Char)) :
    ∀ l, (∀ p ∈ l, dictLookup d1 p = dictLookup d2 p) →
      composeLoop render dims d1 l = composeLoop render dims d2 l := by
  intro l
  induction l with
  | nil => intro _; rfl
  | cons pg rest ih =>
    intro hagree
    have hpg : dictLookup d1 pg = dictLookup d2 pg := hagree pg (List.mem_cons_self _ _)
    have hrest := ih (fun p hp => hagree p (List.mem_cons_of_mem _ hp))
    simp only [composeLoop, hpg, hrest]

/-- Claim C10: two translation maps that agree on all page numbers
`1..N` drive the composer's page loop to identical outputs (events and
pages): entries outside `1..N` are never consulted. -/
theorem c10_out_of_range_noninterference (render : List Char → Except Unit Nat)
    (dims : List (ℚ × ℚ)) (d1 d2 : List (Nat × List Char))
    (h : ∀ p, 1 ≤ p → p ≤ dims.length → dictLookup d1 p = dictLookup d2 p) :
    composeLoop render dims d1 (pageNums dims.length) =
      composeLoop render dims d2 (pageNums dims.length) := by
  apply composeLoop_congr
  intro p hp
  simp only [pageNums, List.mem_map, List.mem_range] at hp
  rcases hp with ⟨i, hi, rfl⟩
  exact h (i+1) (by omega) (by omega)

/-- Witness for C10: a map with the extra out-of-range key 999 composes
identically to its restriction to the valid page numbers. -/
theorem c10_out_of_range_noninterference_witness :
    composeLoop renderOne dims2 dictA (pageNums dims2.length) =
      composeLoop renderOne dims2 dictB (pageNums dims2.length) :=
  c10_out_of_range_noninterference renderOne dims2 dictA dictB
    (by intro p h1 h2
        have : p = 1 ∨ p = 2 := by
          simp only [dims2, List.length_replicate] at h2
          omega
        rcases this with rfl | rfl <;> decide)

/-- Claim C2: for every source document and fragment set whose run
succeeds (with every render producing at least one page), the number of
emitted SpreadPages is at least the source page count, with equality iff
no translated page in range rendered to more than one page; and in the
spec's scenario (5-page source, translations for pages 2 and 4, each
rendering to one page) the output is exactly the five spreads with pages
1/3/5 blank-right and 2/4 filled-right. -/
theorem c2_spread_count :
    (∀ (render : List Char → Except Unit Nat) (dims : List (ℚ × ℚ))
        (files : List (List Char)) (out : List SpreadPage),
      (∀ c k, render c = Except.ok k → 1 ≤ k) →
      (generate_aligned_pdf render dims files).2 = Except.ok (some out) →
      dims.length ≤ out.length ∧
        (out.length = dims.length ↔
          ∀ p ∈ pageNums dims.length, ∀ c,
            dictLookup (merge_translations files) p = some c →
              render c = Except.ok 1)) ∧
    rightsAndFooters (generate_aligned_pdf renderOne dims5 files24).2 =
      Except.ok (some ([none, some 0, none, some 0, none], [1, 2, 3, 4, 5])) := by
  constructor
  · intro render dims files out hK hrun
    have hloop := generate_ok render dims files out hrun
    have hcount := composeLoop_ok_count render dims (merge_translations files) hK
      (pageNums dims.length) out hloop
    have hlen : (pageNums dims.length).length = dims.length := by
      simp [pageNums]
    rw [hlen] at hcount
    exact hcount
  · decide

/-- Witness for C2, instantiating the general statement on the spec's
scenario. -/
theorem c2_spread_count_witness :
    dims5.length ≤ c2out.length ∧
      (c2out.length = dims5.length ↔
        ∀ p ∈ pageNums dims5.length, ∀ c,
          dictLookup (merge_translations files24) p = some c →
            renderOne c = Except.ok 1) :=
  c2_spread_count.1 renderOne dims5 files24 c2out
    (by intro c k hk; cases hk; exact le_refl 1)
    rfl

end CCPaper

namespace CCPaper

/-- Claim C5: on every successful run the SpreadPages appear in
non-decreasing source-page order and are grouped by page number: the
pages with footer `p` are exactly the group emitted for `p`; for a
translated page that group's right halves are the rendered page indices
`0..k-1` in order, every page of the group (overflow pages included)
repeats the identical scaled source page and the footer `p`, and an
untranslated page gets exactly one blank-right spread. -/
theorem c5_ordering_and_overflow (render : List Char → Except Unit Nat)
    (dims : List (ℚ × ℚ)) (files : List (List Char)) (out : List SpreadPage)
    (hK : ∀ c k, render c = Except.ok k → 1 ≤ k)
    (hrun : (generate_aligned_pdf render dims files).2 = Except.ok (some out)) :
    List.Pairwise (· ≤ ·) (out.map SpreadPage.footer) ∧
    (∀ p ∈ pageNums dims.length,
      out.filter (fun sp => sp.footer == p) =
        groupOf render dims (merge_translations files) p) ∧
    (∀ p ∈ pageNums dims.length, ∀ c k,
      dictLookup (merge_translations files) p = some c → render c = Except.ok k →
        (out.filter (fun sp => sp.footer == p)).map SpreadPage.right =
            (List.range k).map some ∧
          ∀ sp ∈ out.filter (fun sp => sp.footer == p),
            sp.srcIdx = p - 1 ∧
              sp.leftRect = place_src (dimsAt dims p).1 (dimsAt dims p).2 ∧
              sp.footer = p) ∧
    (∀ p ∈ pageNums dims.length,
      dictLookup (merge_translations files) p = none →
        out.filter (fun sp => sp.footer == p) = [blankSpread (dimsAt dims p) p]) := by
  have hloop := generate_ok render dims files out hrun
  have hout := composeLoop_ok_out render dims (merge_translations files)
    (pageNums dims.length) out hloop
  have hfilter : ∀ p ∈ pageNums dims.length,
      out.filter (fun sp => sp.footer == p) =
        groupOf render dims (merge_translations files) p := by
    intro p hp
    rw [hout]
    exact filter_footer_flatten (groupOf render dims (merge_translations files))
      (groupOf_footer render dims (merge_translations files)) (pageNums dims.length) p
      (nodup_pageNums dims.length) hp
  refine ⟨?_, hfilter, ?_, ?_⟩
  · rw [hout, List.map_flatten, List.map_map]
    apply List.pairwise_flatten.mpr
    constructor
    · intro l hl
      rcases List.mem_map.mp hl with ⟨q, _, rfl⟩
      apply pairwise_le_of_const (v := q)
      intro x hx
      rcases List.mem_map.mp hx with ⟨sp, hsp, rfl⟩
      exact groupOf_footer render dims (merge_translations files) q sp hsp
    · apply (List.pairwise_map).mpr
      refine (pairwise_lt_pageNums dims.length).imp ?_
      intro q1 q2 hlt x hx y hy
      rcases List.mem_map.mp hx with ⟨sp, hsp, rfl⟩
      rcases List.mem_map.mp hy with ⟨sq, hsq, rfl⟩
      rw [groupOf_footer render dims (merge_translations files) q1 sp hsp,
        groupOf_footer render dims (merge_translations files) q2 sq hsq]
      exact le_of_lt hlt
  · intro p hp c k hc hk
    have hf := hfilter p hp
    rw [hf]
    have hg : groupOf render dims (merge_translations files) p =
        spreadsFor (dimsAt dims p) p k := by
      simp only [groupOf, hc, hk]
    rw [hg]
    exact ⟨spreadsFor_rights (dimsAt dims p) p k (hK c k hk),
      spreadsFor_left (dimsAt dims p) p k⟩
  · intro p hp hc
    have hf := hfilter p hp
    rw [hf]
    simp only [groupOf, hc]

/-- Witness for C5 on the spec's five-page scenario. -/
theorem c5_ordering_and_overflow_witness :
    List.Pairwise (· ≤ ·) (c2out.map SpreadPage.footer) ∧
    (∀ p ∈ pageNums dims5.length,
      c2out.filter (fun sp => sp.footer == p) =
        groupOf renderOne dims5 (merge_translations files24) p) ∧
    (∀ p ∈ pageNums dims5.length, ∀ c k,
      dictLookup (merge_translations files24) p = some c → renderOne c = Except.ok k →
        (c2out.filter (fun sp => sp.footer == p)).map SpreadPage.right =
            (List.range k).map some ∧
          ∀ sp ∈ c2out.filter (fun sp => sp.footer == p),
            sp.srcIdx = p - 1 ∧
              sp.leftRect = place_src (dimsAt dims5 p).1 (dimsAt dims5 p).2 ∧
              sp.footer = p) ∧
    (∀ p ∈ pageNums dims5.length,
      dictLookup (merge_translations files24) p = none →
        c2out.filter (fun sp => sp.footer == p) = [blankSpread (dimsAt dims5 p) p]) :=
  c5_ordering_and_overflow renderOne dims5 files24 c2out
    (by intro c k hk; cases hk; exact le_refl 1) rfl

end CCPaper

namespace CCPaper

/-! ### Characterisation of the marker scanner on structured texts -/

theorem eatLit_self : ∀ (lit r : List Char), eatLit lit (lit ++ r) = some r := by
  intro lit
  induction lit with
  | nil => intro r; rfl
  | cons p ps ih => intro r; simp [eatLit, ih]

theorem eatLit_sound : ∀ (lit s r : List Char), eatLit lit s = some r → s = lit ++ r := by
  intro lit
  induction lit with
  | nil => intro s r h; cases h; rfl
  | cons p ps ih =>
    intro s r h
    cases s with
    | nil => cases h
    | cons c s' =>
      simp only [eatLit] at h
      split at h
      next hc => rw [hc, ih s' r h]; rfl
      next hc => cases h

theorem digit_not_ws (c : Char) (h : isDigitCh c = true) : isWS c = false := by
  by_contra hws
  rw [Bool.not_eq_false] at hws
  simp only [isWS, decide_eq_true_eq] at hws
  rcases hws with rfl | rfl | rfl | rfl | rfl | rfl <;> exact absurd h (by decide)

theorem ws_not_digit (c : Char) (h : isWS c = true) : isDigitCh c = false := by
  by_contra hd
  rw [Bool.not_eq_false] at hd
  exact absurd h (by rw [digit_not_ws c hd]; exact Bool.false_ne_true)

/-- A well-formed marker matches exactly itself, leaving the rest of the
input untouched. -/
theorem matchMarker_render (m : Marker) (hwf : m.wf = true) (r : List Char) :
    matchMarker (m.render ++ r) = some (m.ds, r) := by
  simp only [Marker.wf, Bool.and_eq_true, Bool.not_eq_true', List.all_eq_true] at hwf
  obtain ⟨⟨⟨⟨⟨h1, h2⟩, h2ne⟩, h3⟩, h3ne⟩, h4⟩ := hwf
  have h2ne' : m.w2 ≠ [] := by
    intro hc; rw [hc] at h2ne; cases h2ne
  have h3ne' : m.ds ≠ [] := by
    intro hc; rw [hc] at h3ne; cases h3ne
  obtain ⟨wc, w2', hw2⟩ := List.exists_cons_of_ne_nil h2ne'
  obtain ⟨dc, ds', hds⟩ := List.exists_cons_of_ne_nil h3ne'
  have hclose_t : ∀ x : List Char,
      List.takeWhile (fun c => isDigitCh c) (markerClose ++ x) = [] := by
    intro x
    show List.takeWhile (fun c => isDigitCh c) ('-' :: ('-' :: ('>' :: x))) = []
    rw [List.takeWhile_cons_of_neg (by decide)]
  have hclose_d : ∀ x : List Char,
      List.dropWhile (fun c => isDigitCh c) (markerClose ++ x) = markerClose ++ x := by
    intro x
    show List.dropWhile (fun c => isDigitCh c) ('-' :: ('-' :: ('>' :: x))) = _
    rw [List.dropWhile_cons_of_neg (by decide)]
    rfl
  have hclose_w : ∀ x : List Char,
      List.dropWhile (fun c => isWS c) (markerClose ++ x) = markerClose ++ x := by
    intro x
    show List.dropWhile (fun c => isWS c) ('-' :: ('-' :: ('>' :: x))) = _
    rw [List.dropWhile_cons_of_neg (by decide)]
    rfl
  simp only [matchMarker, Marker.render, List.append_assoc]
  rw [eatLit_self]
  simp only [Option.bind_eq_bind, Option.some_bind]
  have s2 : eatWSStar (m.w1 ++ (pageLit ++ (m.w2 ++ (m.ds ++ (m.w3 ++ (markerClose ++ r)))))) =
      pageLit ++ (m.w2 ++ (m.ds ++ (m.w3 ++ (markerClose ++ r)))) := by
    unfold eatWSStar
    rw [List.dropWhile_append_of_pos h1]
    show List.dropWhile (fun c => isWS c)
        ('P' :: ("AGE".toList ++ (m.w2 ++ (m.ds ++ (m.w3 ++ (markerClose ++ r)))))) = _
    rw [List.dropWhile_cons_of_neg (by decide)]
    rfl
  rw [s2, eatLit_self]
  simp only [Option.some_bind]
  have s4 : eatWSPlus (m.w2 ++ (m.ds ++ (m.w3 ++ (markerClose ++ r)))) =
      some (m.ds ++ (m.w3 ++ (markerClose ++ r))) := by
    rw [hw2]
    simp only [List.cons_append, eatWSPlus]
    have hwc : isWS wc = true := h2 wc (hw2 ▸ List.mem_cons_self _ _)
    rw [if_pos hwc]
    unfold eatWSStar
    rw [List.dropWhile_append_of_pos (fun a ha => h2 a (hw2 ▸ List.mem_cons_of_mem _ ha))]
    rw [hds]
    simp only [List.cons_append]
    rw [List.dropWhile_cons_of_neg (by
      rw [digit_not_ws dc (h3 dc (hds ▸ List.mem_cons_self _ _))]
      exact Bool.false_ne_true)]
  rw [s4]
  simp only [Option.some_bind]
  have hw3step_t : List.takeWhile (fun c => isDigitCh c) (m.w3 ++ (markerClose ++ r)) = [] := by
    cases hw3 : m.w3 with
    | nil => simp only [List.nil_append]; exact hclose_t r
    | cons a w3' =>
      have ha : isWS a = true := h4 a (hw3 ▸ List.mem_cons_self _ _)
      simp only [List.cons_append]
      rw [List.takeWhile_cons_of_neg (by
        rw [ws_not_digit a ha]; exact Bool.false_ne_true)]
  have hw3step_d : List.dropWhile (fun c => isDigitCh c) (m.w3 ++ (markerClose ++ r)) =
      m.w3 ++ (markerClose ++ r) := by
    cases hw3 : m.w3 with
    | nil => simp only [List.nil_append]; exact hclose_d r
    | cons a w3' =>
      have ha : isWS a = true := h4 a (hw3 ▸ List.mem_cons_self _ _)
      simp only [List.cons_append]
      rw [List.dropWhile_cons_of_neg (by
        rw [ws_not_digit a ha]; exact Bool.false_ne_true)]
  have s5t : (m.ds ++ (m.w3 ++ (markerClose ++ r))).takeWhile (fun c => isDigitCh c) = m.ds := by
    rw [List.takeWhile_append_of_pos h3, hw3step_t, List.append_nil]
  have s5d : (m.ds ++ (m.w3 ++ (markerClose ++ r))).dropWhile (fun c => isDigitCh c) =
      m.w3 ++ (markerClose ++ r) := by
    rw [List.dropWhile_append_of_pos h3, hw3step_d]
  rw [s5t, s5d]
  rw [if_neg (by simp [h3ne'])]
  have s6 : eatWSStar (m.w3 ++ (markerClose ++ r)) = markerClose ++ r := by
    unfold eatWSStar
    rw [List.dropWhile_append_of_pos h4]
    exact hclose_w r
  rw [s6, eatLit_self]
  rfl

/-- At a non-`'<'` character no marker match starts. -/
theorem matchMarker_none_of_head (c : Char) (rest : List Char) (hc : ¬ c = '<') :
    matchMarker (c :: rest) = none := by
  unfold matchMarker
  have h1 : eatLit markerOpen (c :: rest) = none := by
    show eatLit ('<' :: "!--".toList) (c :: rest) = none
    simp only [eatLit, if_neg hc]
  rw [h1]
  rfl

end CCPaper

namespace CCPaper

/-- Skipping exactly the consumed characters resumes the scan after them. -/
theorem splitGo_skip : ∀ (m acc r : List Char),
    splitGo acc m.length (m ++ r) = splitGo acc 0 r := by
  intro m
  induction m with
  | nil => intro acc r; rfl
  | cons c m' ih =>
    intro acc r
    show splitGo acc (m'.length + 1) (c :: (m' ++ r)) = _
    simp only [splitGo]
    exact ih acc r

/-- Scanning `'<'`-free text accumulates it into the current piece. -/
theorem splitGo_clean : ∀ (x acc y : List Char), noLt x = true →
    splitGo acc 0 (x ++ y) = splitGo (x.reverse ++ acc) 0 y := by
  intro x
  induction x with
  | nil => intro acc y _; simp
  | cons c x' ih =>
    intro acc y hx
    simp only [noLt, List.all_cons, Bool.and_eq_true, decide_eq_true_eq] at hx
    show splitGo acc 0 (c :: (x' ++ y)) = _
    simp only [splitGo, matchMarker_none_of_head c _ hx.1]
    rw [ih (c :: acc) y hx.2]
    simp [List.append_assoc]

/-- Scanning a well-formed marker emits the current piece and the digit
group, and resumes after the marker. -/
theorem splitGo_marker (m : Marker) (hwf : m.wf = true) (acc rest : List Char) :
    splitGo acc 0 (m.render ++ rest) = acc.reverse :: m.ds :: splitGo [] 0 rest := by
  have hopen : markerOpen = '<' :: "!--".toList := by decide
  obtain ⟨t, ht⟩ : ∃ t, m.render = '<' :: t :=
    ⟨"!--".toList ++ (m.w1 ++ (pageLit ++ (m.w2 ++ (m.ds ++ (m.w3 ++ markerClose))))),
      by simp [Marker.render, hopen]⟩
  have hm : matchMarker ('<' :: (t ++ rest)) = some (m.ds, rest) := by
    rw [← List.cons_append, ← ht]
    exact matchMarker_render m hwf rest
  rw [show m.render ++ rest = '<' :: (t ++ rest) from by rw [ht]; rfl]
  simp only [splitGo, hm]
  rw [show ('<' :: (t ++ rest)).length - rest.length - 1 = t.length from by
    simp only [List.length_cons, List.length_append]
    omega]
  rw [splitGo_skip t [] rest]

/-- `re.split` on a structured text: the piece before the first marker,
then alternating digit groups and contents; the content after the final
marker is the final piece. -/
theorem reSplit_structured : ∀ (body : List (Marker × List Char)) (pre : List Char),
    noLt pre = true → bodyWF body = true →
    reSplitMarker (pre ++ renderBody body) = pre :: bodyParts body := by
  intro body
  induction body with
  | nil =>
    intro pre hpre _
    show splitGo [] 0 (pre ++ renderBody []) = _
    simp only [renderBody]
    rw [splitGo_clean pre [] [] hpre]
    simp [splitGo, bodyParts]
  | cons mc rest ih =>
    obtain ⟨m, c⟩ := mc
    intro pre hpre hwf
    simp only [bodyWF, Bool.and_eq_true] at hwf
    obtain ⟨⟨hm, hc⟩, hrest⟩ := hwf
    show splitGo [] 0 (pre ++ renderBody ((m, c) :: rest)) = _
    simp only [renderBody]
    rw [splitGo_clean pre [] (m.render ++ (c ++ renderBody rest)) hpre]
    rw [splitGo_marker m hm (pre.reverse ++ []) (c ++ renderBody rest)]
    have := ih c hc hrest
    unfold reSplitMarker at this
    rw [this]
    simp [bodyParts]

/-- The `while` loop over the body's parts folds the pairs in order. -/
theorem buildPages_bodyParts : ∀ (body : List (Marker × List Char)) (d : List (Nat × List Char)),
    buildPages d (bodyParts body) =
      (pairsOf body).foldl (fun d p => dictUpd d p.1 p.2) d := by
  intro body
  induction body with
  | nil => intro d; rfl
  | cons mc rest ih =>
    obtain ⟨m, c⟩ := mc
    intro d
    simp only [bodyParts, buildPages, pairsOf, List.map_cons, List.foldl_cons]
    exact ih (dictUpd d (parseNat m.ds) (pyStrip c))

/-- The merger on a structured fragment set: the piece before the first
marker is discarded; every marker contributes the pair of its number and
the stripped content that follows it (the final marker's trailing content
included); later pairs overwrite earlier ones. -/
theorem merge_structured (files : List (List Char)) (pre : List Char)
    (body : List (Marker × List Char))
    (hne : files ≠ [])
    (hjoin : (files.map (fun f => f ++ ['\n'])).flatten = pre ++ renderBody body)
    (hpre : noLt pre = true) (hwf : bodyWF body = true) :
    merge_translations files = lastWins (pairsOf body) := by
  unfold merge_translations
  rw [if_neg (by simp [hne])]
  rw [hjoin, reSplit_structured body pre hpre hwf]
  simp only [List.tail_cons]
  exact buildPages_bodyParts body []

end CCPaper

namespace CCPaper

/-- Lookup over a cons dict. -/
theorem dictLookup_cons (x : Nat × List Char) (l : List (Nat × List Char)) (n : Nat) :
    dictLookup (x :: l) n = if x.1 = n then some x.2 else dictLookup l n := by
  by_cases h : x.1 = n
  · simp [dictLookup, List.find?_cons_of_pos, h]
  · simp [dictLookup, List.find?_cons_of_neg, h]

/-- Overwriting key `k` leaves other keys' lookups unchanged. -/
theorem dictLookup_map_ne (d : List (Nat × List Char)) (k : Nat) (v : List Char) (n : Nat)
    (hnk : ¬ n = k) :
    dictLookup (d.map (fun p => if p.1 = k then (k, v) else p)) n = dictLookup d n := by
  induction d with
  | nil => rfl
  | cons a d' ih =>
    simp only [List.map_cons]
    by_cases hak : a.1 = k
    · rw [if_pos hak, dictLookup_cons, dictLookup_cons]
      rw [if_neg (by simpa using fun hc => hnk hc.symm),
        if_neg (by rw [hak]; exact fun hc => hnk hc.symm)]
      exact ih
    · rw [if_neg hak, dictLookup_cons, dictLookup_cons]
      by_cases han : a.1 = n
      · rw [if_pos han, if_pos han]
      · rw [if_neg han, if_neg han]
        exact ih

/-- Overwriting a present key `k` makes its lookup the new value. -/
theorem dictLookup_map_self (d : List (Nat × List Char)) (k : Nat) (v : List Char)
    (hany : d.any (fun p => p.1 = k) = true) :
    dictLookup (d.map (fun p => if p.1 = k then (k, v) else p)) k = some v := by
  induction d with
  | nil => simp at hany
  | cons a d' ih =>
    simp only [List.any_cons, Bool.or_eq_true, decide_eq_true_eq] at hany
    simp only [List.map_cons]
    by_cases hak : a.1 = k
    · rw [if_pos hak, dictLookup_cons]
      simp
    · rw [if_neg hak, dictLookup_cons, if_neg hak]
      exact ih (hany.resolve_left hak)

/-- Python dict assignment: `d[k] = v` then lookup. -/
theorem dictLookup_upd (d : List (Nat × List Char)) (k : Nat) (v : List Char) (n : Nat) :
    dictLookup (dictUpd d k v) n = if n = k then some v else dictLookup d n := by
  unfold dictUpd
  by_cases hany : (d.any (fun p => p.1 = k)) = true
  · rw [if_pos hany]
    by_cases hnk : n = k
    · subst hnk
      rw [if_pos rfl]
      exact dictLookup_map_self d n v hany
    · rw [if_neg hnk]
      exact dictLookup_map_ne d k v n hnk
  · rw [if_neg hany]
    have hfd : ∀ x ∈ d, ¬ x.1 = k := by
      intro x hx hc
      exact hany (List.any_eq_true.mpr ⟨x, hx, by simp [hc]⟩)
    by_cases hnk : n = k
    · subst hnk
      rw [if_pos rfl]
      have h1 : dictLookup d n = none := by
        unfold dictLookup
        rw [List.find?_eq_none.mpr (by intro x hx; simp [hfd x hx])]
        rfl
      unfold dictLookup
      rw [List.find?_append]
      unfold dictLookup at h1
      rcases hf : List.find? (fun p => p.1 = n) d with _ | p
      · have h3 : List.find? (fun p => p.1 = n) [(n, v)] = some (n, v) := by
          simp [List.find?_cons]
        rw [hf, h3]
        rfl
      · rw [hf] at h1; simp at h1
    · rw [if_neg hnk]
      unfold dictLookup
      rw [List.find?_append]
      have h2 : List.find? (fun p => p.1 = n) [(k, v)] = none := by
        simp only [List.find?_cons, List.find?_nil]
        have : decide ((k, v).1 = n) = false := by
          simp only [decide_eq_false_iff_not]
          exact fun hc => hnk hc.symm
        rw [this]
      rw [h2]
      simp

/-- Later pairs with other keys do not disturb a key's entry. -/
theorem foldUpd_preserve : ∀ (ps : List (Nat × List Char)) (d : List (Nat × List Char))
    (n : Nat) (v : List Char), (∀ p ∈ ps, p.1 ≠ n) → dictLookup d n = some v →
      dictLookup (ps.foldl (fun d p => dictUpd d p.1 p.2) d) n = some v := by
  intro ps
  induction ps with
  | nil => intro d n v _ h; exact h
  | cons p ps' ih =>
    intro d n v hne h
    simp only [List.foldl_cons]
    refine ih (dictUpd d p.1 p.2) n v (fun q hq => hne q (List.mem_cons_of_mem _ hq)) ?_
    rw [dictLookup_upd, if_neg (fun hc => hne p (List.mem_cons_self _ _) hc.symm)]
    exact h

/-- The keys of the accumulated dict are the keys folded in so far plus
the keys already present. -/
theorem foldUpd_keys : ∀ (ps : List (Nat × List Char)) (d : List (Nat × List Char)) (n : Nat),
    (dictLookup (ps.foldl (fun d p => dictUpd d p.1 p.2) d) n).isSome = true ↔
      (n ∈ ps.map (fun p => p.1) ∨ (dictLookup d n).isSome = true) := by
  intro ps
  induction ps with
  | nil => intro d n; simp
  | cons p ps' ih =>
    intro d n
    simp only [List.foldl_cons, List.map_cons, List.mem_cons]
    rw [ih (dictUpd d p.1 p.2) n]
    by_cases hnp : n = p.1
    · subst hnp
      rw [dictLookup_upd, if_pos rfl]
      simp
    · rw [dictLookup_upd, if_neg hnp]
      constructor
      · rintro (h | h)
        · exact Or.inl (Or.inr h)
        · exact Or.inr h
      · rintro ((h | h) | h)
        · exact absurd h hnp
        · exact Or.inl h
        · exact Or.inr h

end CCPaper

namespace CCPaper

/-- Counterexample to claim C3 as stated: the content after the final
marker, with no following marker, is *not* discarded — it is stored as
that page's content. -/
theorem c3_trailing_content_counterexample :
    merge_translations filesTail = [(7, "tail".toList)] ∧
      ¬ dictLookup (merge_translations filesTail) 7 = none := by
  constructor
  · decide
  · decide

/-- Claim C3 (amended): after splitting on page markers, the piece
*before the first marker* is discarded; every marker — the final one
included — is stored with the stripped content that follows it up to the
next marker or the end of the text, later markers overwriting earlier
ones with the same number. -/
theorem c3_trailing_content_amended (files : List (List Char)) (pre : List Char)
    (body : List (Marker × List Char))
    (hne : files ≠ [])
    (hjoin : (files.map (fun f => f ++ ['\n'])).flatten = pre ++ renderBody body)
    (hpre : noLt pre = true) (hwf : bodyWF body = true) :
    merge_translations files = lastWins (pairsOf body) :=
  merge_structured files pre body hne hjoin hpre hwf

/-- Witness for the amended C3: a single marker with trailing content and
a discarded leading piece. -/
theorem c3_trailing_content_amended_witness :
    merge_translations filesTail = lastWins (pairsOf [(mk7, "tail\n".toList)]) :=
  c3_trailing_content_amended filesTail [] [(mk7, "tail\n".toList)]
    (by decide) (by decide) (by decide) (by decide)

/-- Claim C4: when the same page number appears under several markers (in
file-then-occurrence order), the stored entry is the stripped content
following the last occurrence. -/
theorem c4_last_writer_wins (files : List (List Char)) (pre : List Char)
    (l1 l2 : List (Marker × List Char)) (m : Marker) (c : List Char) (n : Nat)
    (hne : files ≠ [])
    (hjoin : (files.map (fun f => f ++ ['\n'])).flatten =
      pre ++ renderBody (l1 ++ (m, c) :: l2))
    (hpre : noLt pre = true) (hwf : bodyWF (l1 ++ (m, c) :: l2) = true)
    (hn : parseNat m.ds = n)
    (hlast : ∀ mc ∈ l2, parseNat mc.1.ds ≠ n) :
    dictLookup (merge_translations files) n = some (pyStrip c) := by
  rw [merge_structured files pre (l1 ++ (m, c) :: l2) hne hjoin hpre hwf]
  unfold lastWins pairsOf
  rw [List.map_append, List.map_cons, List.foldl_append, List.foldl_cons]
  apply foldUpd_preserve
  · intro p hp
    rcases List.mem_map.mp hp with ⟨mc, hmc, rfl⟩
    exact hlast mc hmc
  · rw [dictLookup_upd]
    simp [hn]

/-- Witness for C4: the spec's duplicate-marker scenario gives
`TranslationMap[3] = "body B"`. -/
theorem c4_last_writer_wins_witness :
    dictLookup (merge_translations filesDup3) 3 = some ("body B".toList) := by
  have h := c4_last_writer_wins filesDup3 [] [(mk3, "body A".toList)] []
    mk3 ("body B\n".toList) 3
    (by decide) (by decide) (by decide) (by decide) (by decide)
    (by intro mc hmc; cases hmc)
  rw [h]
  decide

/-- The loop never fails on a missing key: if every translated page in
range renders, the composition succeeds (untranslated pages produce blank
right halves, they are not errors). -/
theorem composeLoop_total (render : List Char → Except Unit Nat) (dims : List (ℚ × ℚ))
    (dict : List (Nat × List Char)) :
    ∀ l, (∀ p ∈ l, ∀ c, dictLookup dict p = some c → ∃ k, render c = Except.ok k) →
      ∃ out, (composeLoop render dims dict l).2 = Except.ok out := by
  intro l
  induction l with
  | nil => intro _; exact ⟨[], rfl⟩
  | cons pg rest ih =>
    intro h
    obtain ⟨out, hout⟩ := ih (fun p hp => h p (List.mem_cons_of_mem _ hp))
    rcases hl : dictLookup dict pg with _ | content
    · refine ⟨blankSpread (dimsAt dims pg) pg :: out, ?_⟩
      simp only [composeLoop, hl]
      rw [hout]
      rfl
    · obtain ⟨k, hk⟩ := h pg (List.mem_cons_self _ _) content hl
      refine ⟨spreadsFor (dimsAt dims pg) pg k ++ out, ?_⟩
      simp only [composeLoop, hl, hk]
      rw [hout]
      rfl

/-- Counterexample to claim C7 as stated: the merger stores marker
numbers as they are written — here the key 0, which lies outside `1..N`
(it is not even positive) for every source page count `N`. -/
theorem c7_keys_subset_counterexample :
    dictLookup (merge_translations filesPage0) 0 = some ("x".toList) ∧ ¬ 1 ≤ 0 := by
  constructor
  · decide
  · decide

/-- Claim C7 (amended): the merged map's keys are exactly the numbers
written in the markers — they need not lie in `1..N`; and the composer
tolerates missing keys: it never fails on them and emits exactly one
blank-right spread for each untranslated page in range. -/
theorem c7_translation_map_keys_amended :
    (∀ (files : List (List Char)) (pre : List Char) (body : List (Marker × List Char)),
      files ≠ [] →
      (files.map (fun f => f ++ ['\n'])).flatten = pre ++ renderBody body →
      noLt pre = true → bodyWF body = true →
      ∀ n, (dictLookup (merge_translations files) n).isSome = true ↔
        n ∈ body.map (fun mc => parseNat mc.1.ds)) ∧
    (∀ (render : List Char → Except Unit Nat) (dims : List (ℚ × ℚ))
        (dict : List (Nat × List Char)) (l : List Nat),
      (∀ p ∈ l, ∀ c, dictLookup dict p = some c → ∃ k, render c = Except.ok k) →
      ∃ out, (composeLoop render dims dict l).2 = Except.ok out) ∧
    (∀ (render : List Char → Except Unit Nat) (dims : List (ℚ × ℚ))
        (dict : List (Nat × List Char)) (out : List SpreadPage) (p : Nat),
      (composeLoop render dims dict (pageNums dims.length)).2 = Except.ok out →
      p ∈ pageNums dims.length → dictLookup dict p = none →
      out.filter (fun sp => sp.footer == p) = [blankSpread (dimsAt dims p) p]) := by
  refine ⟨?_, ?_, ?_⟩
  · intro files pre body hne hjoin hpre hwf n
    rw [merge_structured files pre body hne hjoin hpre hwf]
    unfold lastWins
    rw [foldUpd_keys]
    have h0 : (dictLookup ([] : List (Nat × List Char)) n).isSome = false := rfl
    simp [h0, pairsOf, List.map_map, Function.comp]
  · intro render dims dict l h
    exact composeLoop_total render dims dict l h
  · intro render dims dict out p hrun hp hnone
    have hout := composeLoop_ok_out render dims dict (pageNums dims.length) out hrun
    rw [hout]
    rw [filter_footer_flatten (groupOf render dims dict) (groupOf_footer render dims dict)
      (pageNums dims.length) p (nodup_pageNums dims.length) hp]
    simp only [groupOf, hnone]

/-- Witness for the amended C7: the page-0 fragment has exactly the key 0,
and a two-page composition with an empty map succeeds with blank pages. -/
theorem c7_translation_map_keys_amended_witness :
    ((dictLookup (merge_translations filesPage0) 0).isSome = true ↔
      0 ∈ [(mk0, "x\n".toList)].map (fun mc => parseNat mc.1.ds)) ∧
    (∃ out, (composeLoop renderOne dims2 [] (pageNums dims2.length)).2 = Except.ok out) :=
  ⟨c7_translation_map_keys_amended.1 filesPage0 [] [(mk0, "x\n".toList)]
      (by decide) (by decide) (by decide) (by decide) 0,
   c7_translation_map_keys_amended.2.1 renderOne dims2 [] (pageNums dims2.length)
      (by intro p _ c hc; cases hc)⟩

end CCPaper

namespace CCPaper

/-- The page loop itself never saves or closes documents (those actions
happen after it, on the success path of `generate_aligned_pdf` only). -/
theorem composeLoop_no_close (render : List Char → Except Unit Nat) (dims : List (ℚ × ℚ))
    (dict : List (Nat × List Char)) :
    ∀ l, Ev.closeSrc ∉ (composeLoop render dims dict l).1 ∧
      Ev.closeOut ∉ (composeLoop render dims dict l).1 ∧
      Ev.saveOut ∉ (composeLoop render dims dict l).1 := by
  intro l
  induction l with
  | nil => exact ⟨by simp [composeLoop], by simp [composeLoop], by simp [composeLoop]⟩
  | cons pg rest ih =>
    rcases hl : dictLookup dict pg with _ | content
    · simpa only [composeLoop, hl] using ih
    · rcases hk : render content with e | k
      · simp only [composeLoop, hl, hk]
        refine ⟨?_, ?_, ?_⟩ <;> simp
      · simp only [composeLoop, hl, hk]
        refine ⟨?_, ?_, ?_⟩ <;> simp [ih.1, ih.2.1, ih.2.2]

/-- A failing loop run has called the renderer on some page and removed
its temp HTML file (the `finally:` in `render_html_to_pdf`). -/
theorem composeLoop_error_unlink (render : List Char → Except Unit Nat) (dims : List (ℚ × ℚ))
    (dict : List (Nat × List Char)) :
    ∀ l e, (composeLoop render dims dict l).2 = Except.error e →
      ∃ p, Ev.renderCall p ∈ (composeLoop render dims dict l).1 ∧
        Ev.unlinkHtml p ∈ (composeLoop render dims dict l).1 := by
  intro l
  induction l with
  | nil => intro e h; simp [composeLoop] at h
  | cons pg rest ih =>
    intro e h
    rcases hl : dictLookup dict pg with _ | content
    · simp only [composeLoop, hl] at h ⊢
      rcases hr : (composeLoop render dims dict rest).2 with e' | pages
      · obtain ⟨p, hp1, hp2⟩ := ih e' hr
        exact ⟨p, hp1, hp2⟩
      · rw [hr] at h
        simp [Except.map] at h
    · rcases hk : render content with e' | k
      · refine ⟨pg, ?_, ?_⟩ <;> simp [composeLoop, hl, hk]
      · simp only [composeLoop, hl, hk] at h ⊢
        rcases hr : (composeLoop render dims dict rest).2 with e' | pages
        · obtain ⟨p, hp1, hp2⟩ := ih e' hr
          exact ⟨p, by simp [hp1], by simp [hp2]⟩
        · rw [hr] at h
          simp [Except.map] at h

/-- Unpacking a failing `generate_aligned_pdf` run. -/
theorem generate_error (render : List Char → Except Unit Nat) (dims : List (ℚ × ℚ))
    (files : List (List Char)) (e : Unit)
    (h : (generate_aligned_pdf render dims files).2 = Except.error e) :
    generate_aligned_pdf render dims files =
      ([Ev.openSrc, Ev.openOut] ++
        (composeLoop render dims (merge_translations files) (pageNums dims.length)).1,
       Except.error e) ∧
      (composeLoop render dims (merge_translations files) (pageNums dims.length)).2 =
        Except.error e := by
  by_cases hemp : (merge_translations files).isEmpty = true
  · simp [generate_aligned_pdf, hemp] at h
  · simp only [generate_aligned_pdf, if_neg hemp] at h ⊢
    constructor
    · split
      next pages hp =>
        rw [hp] at h
        dsimp only at h
        cases h
      next e' hp =>
        rw [hp] at h
    · split at h
      next pages hp => dsimp only at h; cases h
      next e' hp => exact hp

end CCPaper

namespace CCPaper

/-- Counterexample to claim C8 as stated: a failing render is caught per
document and the batch continues, but the opened source and output PDFs
are *not* closed on the failure path (no `finally:` around the loop) —
only the render's temp HTML file is removed. -/
theorem c8_resources_not_closed_counterexample :
    (generate_aligned_pdf renderPicky dims1 filesF).2 = Except.error () ∧
    Ev.openSrc ∈ (generate_aligned_pdf renderPicky dims1 filesF).1 ∧
    Ev.closeSrc ∉ (generate_aligned_pdf renderPicky dims1 filesF).1 ∧
    Ev.closeOut ∉ (generate_aligned_pdf renderPicky dims1 filesF).1 ∧
    Ev.unlinkHtml 1 ∈ (generate_aligned_pdf renderPicky dims1 filesF).1 ∧
    rightsAndFooters (generate_aligned_pdf renderPicky dims1 filesO).2 =
      Except.ok (some ([some 0], [1])) ∧
    mainDual renderPicky [⟨true, dims1, filesF⟩, ⟨true, dims1, filesO⟩] =
      [some (generate_aligned_pdf renderPicky dims1 filesF),
       some (generate_aligned_pdf renderPicky dims1 filesO)] :=
  ⟨by decide, by decide, by decide, by decide, by decide, by decide, rfl⟩

/-- Claim C8 (amended): a per-document failure is caught, the batch
continues with the other documents, and the failing document's
composition is abandoned (no save); the render's temporary HTML file has
been deleted, but the source and output documents that were opened are
not closed on this path. -/
theorem c8_failure_isolation_amended :
    (∀ (render : List Char → Except Unit Nat) (dims : List (ℚ × ℚ))
        (files : List (List Char)) (e : Unit),
      (generate_aligned_pdf render dims files).2 = Except.error e →
      Ev.openSrc ∈ (generate_aligned_pdf render dims files).1 ∧
      Ev.openOut ∈ (generate_aligned_pdf render dims files).1 ∧
      Ev.closeSrc ∉ (generate_aligned_pdf render dims files).1 ∧
      Ev.closeOut ∉ (generate_aligned_pdf render dims files).1 ∧
      Ev.saveOut ∉ (generate_aligned_pdf render dims files).1 ∧
      ∃ p, Ev.renderCall p ∈ (generate_aligned_pdf render dims files).1 ∧
        Ev.unlinkHtml p ∈ (generate_aligned_pdf render dims files).1) ∧
    (∀ (render : List Char → Except Unit Nat) (docs1 docs2 : List DocSpec) (d : DocSpec),
      mainDual render (docs1 ++ d :: docs2) =
        mainDual render docs1 ++
          (if d.hasPdf = false ∨ d.files.isEmpty then none
           else some (generate_aligned_pdf render d.dims d.files)) :: mainDual render docs2) := by
  constructor
  · intro render dims files e h
    obtain ⟨heq, hloop⟩ := generate_error render dims files e h
    obtain ⟨hc1, hc2, hc3⟩ := composeLoop_no_close render dims (merge_translations files)
      (pageNums dims.length)
    obtain ⟨p, hp1, hp2⟩ := composeLoop_error_unlink render dims (merge_translations files)
      (pageNums dims.length) e hloop
    rw [heq]
    refine ⟨by simp, by simp, ?_, ?_, ?_, ⟨p, by simp [hp1], by simp [hp2]⟩⟩
    · intro hc
      rcases List.mem_append.mp hc with hg | hg
      · simp at hg
      · exact hc1 hg
    · intro hc
      rcases List.mem_append.mp hc with hg | hg
      · simp at hg
      · exact hc2 hg
    · intro hc
      rcases List.mem_append.mp hc with hg | hg
      · simp at hg
      · exact hc3 hg
  · intro render docs1 docs2 d
    simp [mainDual]

/-- Witness for the amended C8, applying it to the concrete failing
batch. -/
theorem c8_failure_isolation_amended_witness :
    (Ev.openSrc ∈ (generate_aligned_pdf renderPicky dims1 filesF).1 ∧
     Ev.openOut ∈ (generate_aligned_pdf renderPicky dims1 filesF).1 ∧
     Ev.closeSrc ∉ (generate_aligned_pdf renderPicky dims1 filesF).1 ∧
     Ev.closeOut ∉ (generate_aligned_pdf renderPicky dims1 filesF).1 ∧
     Ev.saveOut ∉ (generate_aligned_pdf renderPicky dims1 filesF).1 ∧
     ∃ p, Ev.renderCall p ∈ (generate_aligned_pdf renderPicky dims1 filesF).1 ∧
       Ev.unlinkHtml p ∈ (generate_aligned_pdf renderPicky dims1 filesF).1) ∧
    mainDual renderPicky ([] ++ DocSpec.mk true dims1 filesF :: [DocSpec.mk true dims1 filesO]) =
      mainDual renderPicky [] ++
        (if (DocSpec.mk true dims1 filesF).hasPdf = false ∨
            (DocSpec.mk true dims1 filesF).files.isEmpty then none
         else some (generate_aligned_pdf renderPicky (DocSpec.mk true dims1 filesF).dims
           (DocSpec.mk true dims1 filesF).files)) :: mainDual renderPicky [DocSpec.mk true dims1 filesO] :=
  ⟨c8_failure_isolation_amended.1 renderPicky dims1 filesF () (by decide),
   c8_failure_isolation_amended.2 renderPicky [] [DocSpec.mk true dims1 filesO]
     (DocSpec.mk true dims1 filesF)⟩

end CCPaper

namespace CCPaper

/-! ### C1: digit and placeholder-key facts -/

theorem digitChar_toNat : ∀ m, m < 10 → (digitChar m).toNat = 48 + m := by decide

theorem digitChar_ne : ∀ m, m < 10 → digitChar m ≠ '$' ∧ digitChar m ≠ 'M' := by decide

theorem natDigitsF_mem : ∀ (fuel n : Nat) (c : Char),
    c ∈ natDigitsF fuel n → ∃ m, m < 10 ∧ c = digitChar m := by
  intro fuel
  induction fuel with
  | zero => intro n c hc; simp [natDigitsF] at hc
  | succ fuel ih =>
    intro n c hc
    by_cases h : n < 10
    · simp [natDigitsF, h] at hc
      exact ⟨n, h, hc⟩
    · simp [natDigitsF, h] at hc
      rcases hc with hc | hc
      · exact ih _ _ hc
      · exact ⟨n % 10, Nat.mod_lt _ (by omega), hc⟩

theorem pad4_chars : ∀ (n : Nat) (c : Char), c ∈ pad4 n → c ≠ '$' ∧ c ≠ 'M' := by
  intro n c hc
  simp [pad4, List.mem_replicate, natDigits] at hc
  rcases hc with ⟨-, rfl⟩ | hc
  · exact ⟨by decide, by decide⟩
  · obtain ⟨m, hm, rfl⟩ := natDigitsF_mem _ _ _ hc
    exact digitChar_ne m hm

theorem natDigitsF_foldl : ∀ (fuel n a : Nat), n < fuel →
    (natDigitsF fuel n).foldl (fun a c => 10 * a + (c.toNat - 48)) a =
      a * 10 ^ (natDigitsF fuel n).length + n := by
  intro fuel
  induction fuel with
  | zero => intro n a h; omega
  | succ fuel ih =>
    intro n a h
    by_cases h10 : n < 10
    · simp only [natDigitsF, if_pos h10, List.foldl_cons, List.foldl_nil, List.length_cons,
        List.length_nil, pow_one, Nat.zero_add]
      rw [digitChar_toNat n h10]
      omega
    · have hdiv : n % 10 < 10 := Nat.mod_lt _ (by omega)
      have hlt : n / 10 < n := Nat.div_lt_self (by omega) (by omega)
      simp only [natDigitsF, if_neg h10, List.foldl_append, List.foldl_cons, List.foldl_nil,
        List.length_append, List.length_cons, List.length_nil, Nat.zero_add]
      rw [ih (n / 10) a (by omega), digitChar_toNat _ hdiv, pow_succ, ← mul_assoc]
      have hdm := Nat.div_add_mod n 10
      generalize a * 10 ^ (natDigitsF fuel (n / 10)).length = Q
      omega

theorem parseNat_pad4 (n : Nat) : parseNat (pad4 n) = n := by
  unfold parseNat pad4
  rw [List.foldl_append]
  have hz : List.foldl (fun a c => 10 * a + (c.toNat - 48)) 0
      (List.replicate (4 - (natDigits n).length) '0') = 0 := by
    generalize 4 - (natDigits n).length = k
    induction k with
    | zero => rfl
    | succ k ih =>
      rw [List.replicate_succ, List.foldl_cons]
      rw [show (10 * 0 + ('0'.toNat - 48)) = 0 from by decide]
      exact ih
  rw [hz]
  have := natDigitsF_foldl (n+1) n 0 (by omega)
  simpa [natDigits] using this

theorem pad4_inj (m n : Nat) (h : pad4 m = pad4 n) : m = n := by
  have := congrArg parseNat h
  simpa [parseNat_pad4] using this

theorem natDigitsF_length : ∀ (fuel n : Nat), n < fuel →
    (n < 10 → (natDigitsF fuel n).length ≤ 1) ∧
    (n < 100 → (natDigitsF fuel n).length ≤ 2) ∧
    (n < 1000 → (natDigitsF fuel n).length ≤ 3) ∧
    (n < 10000 → (natDigitsF fuel n).length ≤ 4) := by
  intro fuel
  induction fuel with
  | zero => intro n h; omega
  | succ fuel ih =>
    intro n h
    by_cases h10 : n < 10
    · simp only [natDigitsF, if_pos h10, List.length_cons, List.length_nil]
      omega
    · have hlt : n / 10 < n := Nat.div_lt_self (by omega) (by omega)
      have ih2 := ih (n / 10) (by omega)
      simp only [natDigitsF, if_neg h10, List.length_append, List.length_cons, List.length_nil]
      omega

theorem pad4_length (n : Nat) (h : n < 10000) : (pad4 n).length = 4 := by
  have h4 := (natDigitsF_length (n+1) n (by omega)).2.2.2 h
  simp only [pad4, List.length_append, List.length_replicate, natDigits] at *
  omega

theorem mathL_eq : mathL = 'M' :: 'A' :: 'T' :: 'H' :: [] := by decide

theorem blockKey_shape (n : Nat) :
    blockKey n = mathL ++ ('B' :: 'L' :: 'O' :: 'C' :: 'K' :: pad4 n) := by
  show mathBlockStr ++ pad4 n = _
  rw [show mathBlockStr = mathL ++ ['B', 'L', 'O', 'C', 'K'] from by decide, List.append_assoc]
  rfl

theorem inlineKey_shape (n : Nat) :
    inlineKey n = mathL ++ ('I' :: 'N' :: 'L' :: 'I' :: 'N' :: 'E' :: pad4 n) := by
  show mathInlineStr ++ pad4 n = _
  rw [show mathInlineStr = mathL ++ ['I', 'N', 'L', 'I', 'N', 'E'] from by decide,
    List.append_assoc]
  rfl

theorem blockKey_length (n : Nat) (h : n < 10000) : (blockKey n).length = 13 := by
  simp [blockKey, List.length_append, pad4_length n h,
    show mathBlockStr.length = 9 from by decide]

theorem inlineKey_length (n : Nat) (h : n < 10000) : (inlineKey n).length = 14 := by
  simp [inlineKey, List.length_append, pad4_length n h,
    show mathInlineStr.length = 10 from by decide]

theorem blockKeyTail_noM (n : Nat) : noM ('B' :: 'L' :: 'O' :: 'C' :: 'K' :: pad4 n) := by
  intro c hc
  simp only [List.mem_cons] at hc
  rcases hc with rfl | rfl | rfl | rfl | rfl | hc
  any_goals decide
  exact (pad4_chars n c hc).2

theorem inlineKeyTail_noM (n : Nat) :
    noM ('I' :: 'N' :: 'L' :: 'I' :: 'N' :: 'E' :: pad4 n) := by
  intro c hc
  simp only [List.mem_cons] at hc
  rcases hc with rfl | rfl | rfl | rfl | rfl | rfl | hc
  any_goals decide
  exact (pad4_chars n c hc).2

theorem noDollar_blockKey (n : Nat) : noDollar (blockKey n) = true := by
  simp only [noDollar, List.all_eq_true, decide_eq_true_eq]
  intro c hc
  rw [blockKey_shape n, mathL_eq] at hc
  simp only [List.cons_append, List.nil_append, List.mem_cons] at hc
  rcases hc with rfl | rfl | rfl | rfl | rfl | rfl | rfl | rfl | rfl | hc
  any_goals decide
  exact (pad4_chars n c hc).1

theorem noDollar_inlineKey (n : Nat) : noDollar (inlineKey n) = true := by
  simp only [noDollar, List.all_eq_true, decide_eq_true_eq]
  intro c hc
  rw [inlineKey_shape n, mathL_eq] at hc
  simp only [List.cons_append, List.nil_append, List.mem_cons] at hc
  rcases hc with rfl | rfl | rfl | rfl | rfl | rfl | rfl | rfl | rfl | rfl | hc
  any_goals decide
  exact (pad4_chars n c hc).1

/-! ### C1: occurrence analysis for the `MATH…` placeholder keys -/

theorem hasInfix_cons (pat : List Char) (c : Char) (r : List Char) :
    hasInfix pat (c :: r) = (pat.isPrefixOf (c :: r) || hasInfix pat r) := rfl

theorem mathFree_cons {c : Char} {x : List Char} (h : mathFree (c :: x) = true) :
    mathFree x = true := by
  simp only [mathFree, Bool.not_eq_true', hasInfix_cons, Bool.or_eq_false_iff] at h
  simp only [mathFree, Bool.not_eq_true', h.2]

theorem mathFree_not_prefix {x : List Char} (h : mathFree x = true) : ¬ (mathL <+: x) := by
  intro hp
  cases x with
  | nil => simp [mathL_eq, List.prefix_nil] at hp
  | cons c r =>
    have hb : mathL.isPrefixOf (c :: r) = true := List.isPrefixOf_iff_prefix.mpr hp
    simp only [mathFree, Bool.not_eq_true', hasInfix_cons, Bool.or_eq_false_iff] at h
    rw [hb] at h
    exact Bool.noConfusion h.1

theorem headMB_head {y : List Char} {e : Char} (hy : headMB (e :: y)) : e = 'M' ∨ e = '$' := by
  rcases hy with hy | hy | hy
  · simp at hy
  · simp at hy; exact Or.inl hy
  · simp at hy; exact Or.inr hy

theorem mathL_prefix_split : ∀ (x y : List Char), x ≠ [] → headMB y →
    mathL <+: (x ++ y) → mathL <+: x := by
  intro x y hx hy hp
  rcases x with _ | ⟨a, _ | ⟨b, _ | ⟨c, _ | ⟨d, x'⟩⟩⟩⟩
  · exact absurd rfl hx
  · exfalso
    rw [mathL_eq] at hp
    simp only [List.cons_append, List.nil_append, List.cons_prefix_cons] at hp
    obtain ⟨-, hp⟩ := hp
    cases y with
    | nil => simp [List.prefix_nil] at hp
    | cons e y' =>
      rw [List.cons_prefix_cons] at hp
      rcases headMB_head hy with rfl | rfl
      · exact absurd hp.1.symm (by decide)
      · exact absurd hp.1.symm (by decide)
  · exfalso
    rw [mathL_eq] at hp
    simp only [List.cons_append, List.nil_append, List.cons_prefix_cons] at hp
    obtain ⟨-, -, hp⟩ := hp
    cases y with
    | nil => simp [List.prefix_nil] at hp
    | cons e y' =>
      rw [List.cons_prefix_cons] at hp
      rcases headMB_head hy with rfl | rfl
      · exact absurd hp.1.symm (by decide)
      · exact absurd hp.1.symm (by decide)
  · exfalso
    rw [mathL_eq] at hp
    simp only [List.cons_append, List.nil_append, List.cons_prefix_cons] at hp
    obtain ⟨-, -, -, hp⟩ := hp
    cases y with
    | nil => simp [List.prefix_nil] at hp
    | cons e y' =>
      rw [List.cons_prefix_cons] at hp
      rcases headMB_head hy with rfl | rfl
      · exact absurd hp.1.symm (by decide)
      · exact absurd hp.1.symm (by decide)
  · rw [mathL_eq] at hp ⊢
    simp only [List.cons_append, List.nil_append, List.cons_prefix_cons] at hp
    obtain ⟨h1, h2, h3, h4, -⟩ := hp
    simp only [List.cons_prefix_cons]
    exact ⟨h1, h2, h3, h4, List.nil_prefix⟩

theorem pyReplace_cons (pat rep : List Char) (c : Char) (rest : List Char) :
    pyReplace pat rep 0 (c :: rest) =
      if pat.isPrefixOf (c :: rest) ∧ ¬ pat.isEmpty then
        rep ++ pyReplace pat rep (pat.length - 1) rest
      else c :: pyReplace pat rep 0 rest := rfl

theorem pyReplace_skip : ∀ (m : List Char) (pat rep y : List Char),
    pyReplace pat rep m.length (m ++ y) = pyReplace pat rep 0 y
  | [], _, _, _ => rfl
  | _ :: m, pat, rep, y => pyReplace_skip m pat rep y

theorem pyReplace_at_key (pat rep y : List Char) (hp : pat ≠ []) :
    pyReplace pat rep 0 (pat ++ y) = rep ++ pyReplace pat rep 0 y := by
  cases pat with
  | nil => exact absurd rfl hp
  | cons p t =>
    rw [List.cons_append, pyReplace_cons, if_pos]
    · have hl : (p :: t).length - 1 = t.length := by simp
      rw [hl]
      rw [pyReplace_skip t _ _ y]
    · refine ⟨List.isPrefixOf_iff_prefix.mpr ⟨y, by simp⟩, by simp⟩

theorem pyReplace_noM : ∀ (x : List Char) (q rep y : List Char), noM x →
    pyReplace (mathL ++ q) rep 0 (x ++ y) = x ++ pyReplace (mathL ++ q) rep 0 y := by
  intro x
  induction x with
  | nil => intro q rep y _; rfl
  | cons c x ih =>
    intro q rep y hx
    rw [List.cons_append, pyReplace_cons, if_neg]
    · rw [ih q rep y (fun d hd => hx d (List.mem_cons_of_mem c hd))]
      rfl
    · rintro ⟨h1, -⟩
      have hpre := List.isPrefixOf_iff_prefix.mp h1
      rw [mathL_eq] at hpre
      simp only [List.cons_append, List.nil_append, List.cons_prefix_cons] at hpre
      exact hx c (List.mem_cons_self c x) hpre.1.symm

theorem pyReplace_mathFree : ∀ (x : List Char) (q rep y : List Char),
    mathFree x = true → headMB y →
    pyReplace (mathL ++ q) rep 0 (x ++ y) = x ++ pyReplace (mathL ++ q) rep 0 y := by
  intro x
  induction x with
  | nil => intro q rep y _ _; rfl
  | cons c x ih =>
    intro q rep y hx hy
    rw [List.cons_append, pyReplace_cons, if_neg]
    · rw [ih q rep y (mathFree_cons hx) hy]
      rfl
    · rintro ⟨h1, -⟩
      have hpre := List.isPrefixOf_iff_prefix.mp h1
      have hm : mathL <+: (c :: x) ++ y := List.IsPrefix.trans ⟨q, rfl⟩ hpre
      exact mathFree_not_prefix hx (mathL_prefix_split (c :: x) y (by simp) hy hm)

theorem pyReplace_dollar (q rep : List Char) (z : List Char) :
    pyReplace (mathL ++ q) rep 0 ('$' :: z) = '$' :: pyReplace (mathL ++ q) rep 0 z := by
  have h := pyReplace_noM ['$'] q rep z (by
    intro c hc
    simp only [List.mem_cons, List.not_mem_nil, or_false] at hc
    subst hc
    decide)
  simpa using h

theorem pyReplace_body (content q rep y : List Char) (hc : mathFree content = true) :
    pyReplace (mathL ++ q) rep 0 (('$' :: '$' :: (content ++ ['$', '$'])) ++ y) =
      ('$' :: '$' :: (content ++ ['$', '$'])) ++ pyReplace (mathL ++ q) rep 0 y := by
  have harr : ('$' :: '$' :: (content ++ ['$', '$'])) ++ y =
      '$' :: '$' :: (content ++ ('$' :: '$' :: y)) := by simp
  rw [harr, pyReplace_dollar, pyReplace_dollar,
    pyReplace_mathFree content q rep ('$' :: '$' :: y) hc (Or.inr (Or.inr rfl)),
    pyReplace_dollar, pyReplace_dollar]
  simp

theorem pyReplace_ibody (content q rep y : List Char) (hc : mathFree content = true) :
    pyReplace (mathL ++ q) rep 0 (('$' :: (content ++ ['$'])) ++ y) =
      ('$' :: (content ++ ['$'])) ++ pyReplace (mathL ++ q) rep 0 y := by
  have harr : ('$' :: (content ++ ['$'])) ++ y = '$' :: (content ++ ('$' :: y)) := by simp
  rw [harr, pyReplace_dollar,
    pyReplace_mathFree content q rep ('$' :: y) hc (Or.inr (Or.inr rfl)),
    pyReplace_dollar]
  simp

theorem pyReplace_keySeg (q xt rep y : List Char)
    (hnom : noM xt)
    (hnp : ¬ ((mathL ++ q).isPrefixOf ('M' :: (xt ++ y)) = true)) :
    pyReplace (mathL ++ q) rep 0 (('M' :: xt) ++ y) =
      ('M' :: xt) ++ pyReplace (mathL ++ q) rep 0 y := by
  rw [List.cons_append, pyReplace_cons, if_neg (fun h => hnp h.1),
    pyReplace_noM xt q rep y hnom]
  rfl

theorem blockKey_cons (n : Nat) :
    blockKey n = 'M' :: ('A' :: 'T' :: 'H' :: 'B' :: 'L' :: 'O' :: 'C' :: 'K' :: pad4 n) := by
  rw [blockKey_shape n, mathL_eq]
  rfl

theorem inlineKey_cons (n : Nat) :
    inlineKey n =
      'M' :: ('A' :: 'T' :: 'H' :: 'I' :: 'N' :: 'L' :: 'I' :: 'N' :: 'E' :: pad4 n) := by
  rw [inlineKey_shape n, mathL_eq]
  rfl

theorem pad4_noM (n : Nat) : noM (pad4 n) := fun c hc => (pad4_chars n c hc).2

theorem noM_cons {c : Char} {t : List Char} (h1 : c ≠ 'M') (h2 : noM t) : noM (c :: t) := by
  intro d hd
  rcases List.mem_cons.mp hd with rfl | hd
  · exact h1
  · exact h2 d hd

theorem blockKeyTail2_noM (n : Nat) :
    noM ('A' :: 'T' :: 'H' :: 'B' :: 'L' :: 'O' :: 'C' :: 'K' :: pad4 n) :=
  noM_cons (by decide) (noM_cons (by decide) (noM_cons (by decide) (noM_cons (by decide)
    (noM_cons (by decide) (noM_cons (by decide) (noM_cons (by decide)
      (noM_cons (by decide) (pad4_noM n))))))))

theorem inlineKeyTail2_noM (n : Nat) :
    noM ('A' :: 'T' :: 'H' :: 'I' :: 'N' :: 'L' :: 'I' :: 'N' :: 'E' :: pad4 n) :=
  noM_cons (by decide) (noM_cons (by decide) (noM_cons (by decide) (noM_cons (by decide)
    (noM_cons (by decide) (noM_cons (by decide) (noM_cons (by decide)
      (noM_cons (by decide) (noM_cons (by decide) (pad4_noM n)))))))))

theorem blockKey_not_prefix_blockKey (j m : Nat) (y : List Char) (hne : j ≠ m)
    (hj : j < 10000) (hm : m < 10000) :
    ¬ ((blockKey j).isPrefixOf (blockKey m ++ y) = true) := by
  intro h
  obtain ⟨s, hs⟩ := List.isPrefixOf_iff_prefix.mp h
  have hlen : (blockKey j).length = (blockKey m).length := by
    rw [blockKey_length j hj, blockKey_length m hm]
  obtain ⟨h1, -⟩ := List.append_inj hs hlen
  have h2 : mathBlockStr ++ pad4 j = mathBlockStr ++ pad4 m := h1
  exact hne (pad4_inj j m (List.append_cancel_left h2))

theorem inlineKey_not_prefix_inlineKey (j m : Nat) (y : List Char) (hne : j ≠ m)
    (hj : j < 10000) (hm : m < 10000) :
    ¬ ((inlineKey j).isPrefixOf (inlineKey m ++ y) = true) := by
  intro h
  obtain ⟨s, hs⟩ := List.isPrefixOf_iff_prefix.mp h
  have hlen : (inlineKey j).length = (inlineKey m).length := by
    rw [inlineKey_length j hj, inlineKey_length m hm]
  obtain ⟨h1, -⟩ := List.append_inj hs hlen
  have h2 : mathInlineStr ++ pad4 j = mathInlineStr ++ pad4 m := h1
  exact hne (pad4_inj j m (List.append_cancel_left h2))

theorem passB_inline (j m : Nat) (rep y : List Char) :
    pyReplace (blockKey j) rep 0 (inlineKey m ++ y) =
      inlineKey m ++ pyReplace (blockKey j) rep 0 y := by
  rw [blockKey_shape j, inlineKey_cons m]
  refine pyReplace_keySeg _ _ rep y (inlineKeyTail2_noM m) ?_
  intro h
  have hpre := List.isPrefixOf_iff_prefix.mp h
  rw [mathL_eq] at hpre
  simp only [List.cons_append, List.nil_append, List.cons_prefix_cons] at hpre
  obtain ⟨-, -, -, -, h5, -⟩ := hpre
  exact absurd h5 (by decide)

theorem passI_block (j m : Nat) (rep y : List Char) :
    pyReplace (inlineKey j) rep 0 (blockKey m ++ y) =
      blockKey m ++ pyReplace (inlineKey j) rep 0 y := by
  rw [inlineKey_shape j, blockKey_cons m]
  refine pyReplace_keySeg _ _ rep y (blockKeyTail2_noM m) ?_
  intro h
  have hpre := List.isPrefixOf_iff_prefix.mp h
  rw [mathL_eq] at hpre
  simp only [List.cons_append, List.nil_append, List.cons_prefix_cons] at hpre
  obtain ⟨-, -, -, -, h5, -⟩ := hpre
  exact absurd h5 (by decide)

theorem passB_block (j m : Nat) (rep y : List Char) (hne : j ≠ m)
    (hj : j < 10000) (hm : m < 10000) :
    pyReplace (blockKey j) rep 0 (blockKey m ++ y) =
      blockKey m ++ pyReplace (blockKey j) rep 0 y := by
  have hnp := blockKey_not_prefix_blockKey j m y hne hj hm
  rw [blockKey_shape j, blockKey_cons m]
  refine pyReplace_keySeg _ _ rep y (blockKeyTail2_noM m) ?_
  intro h
  apply hnp
  rw [blockKey_shape j, blockKey_cons m]
  exact h

theorem passI_inline (j m : Nat) (rep y : List Char) (hne : j ≠ m)
    (hj : j < 10000) (hm : m < 10000) :
    pyReplace (inlineKey j) rep 0 (inlineKey m ++ y) =
      inlineKey m ++ pyReplace (inlineKey j) rep 0 y := by
  have hnp := inlineKey_not_prefix_inlineKey j m y hne hj hm
  rw [inlineKey_shape j, inlineKey_cons m]
  refine pyReplace_keySeg _ _ rep y (inlineKeyTail2_noM m) ?_
  intro h
  apply hnp
  rw [inlineKey_shape j, inlineKey_cons m]
  exact h

/-! ### C1: the block pass on structured texts -/

theorem renderChunks_cons (ch : Chunk) (cs : List Chunk) :
    renderChunks (ch :: cs) = Chunk.render ch ++ renderChunks cs := by
  simp [renderChunks]

theorem noDollar_cons {c : Char} {s : List Char} (h : noDollar (c :: s) = true) :
    c ≠ '$' ∧ noDollar s = true := by
  simpa [noDollar, List.all_cons, Bool.and_eq_true, decide_eq_true_eq] using h

theorem sepOK_tail : ∀ (ch : Chunk) (cs : List Chunk),
    sepOK (ch :: cs) = true → sepOK cs = true := by
  intro ch cs h
  cases cs with
  | nil => rfl
  | cons c2 cs2 =>
    cases ch with
    | lit s => simp only [sepOK, Bool.and_eq_true] at h; exact h.2
    | blockM c => exact h
    | inlineM c => simp only [sepOK, Bool.and_eq_true] at h; exact h.2

theorem blockGo_skip : ∀ (m : List Char) (cnt : Nat) (r : List Char),
    blockGo cnt m.length (m ++ r) = blockGo cnt 0 r
  | [], _, _ => rfl
  | _ :: m, cnt, r => blockGo_skip m cnt r

theorem findBlockClose_cons (acc : List Char) (c : Char) (rest : List Char) :
    findBlockClose acc (c :: rest) =
      if c = '$' ∧ rest.head? = some '$' then
        if acc.isEmpty then findBlockClose ('$' :: acc) rest
        else some (acc.reverse, rest.tail)
      else findBlockClose (c :: acc) rest := rfl

theorem findBlockClose_exact : ∀ (content acc r : List Char),
    content ≠ [] → hasInfix ['$', '$'] content = false → content.getLast? ≠ some '$' →
    findBlockClose acc (content ++ '$' :: '$' :: r) = some (acc.reverse ++ content, r) := by
  intro content
  induction content with
  | nil => intro acc r h _ _; exact absurd rfl h
  | cons x content ih =>
    intro acc r _ hinf hlast
    cases content with
    | nil =>
      have hx : x ≠ '$' := by
        intro he
        exact hlast (by simp [he])
      rw [List.cons_append, List.nil_append, findBlockClose_cons,
        if_neg (fun h => hx h.1), findBlockClose_cons, if_pos ⟨rfl, rfl⟩,
        if_neg (by simp)]
      simp
    | cons y content2 =>
      have hy : ¬ (x = '$' ∧ ((y :: content2) ++ '$' :: '$' :: r).head? = some '$') := by
        rintro ⟨rfl, h2⟩
        simp only [List.cons_append, List.head?_cons, Option.some.injEq] at h2
        subst h2
        rw [hasInfix_cons, show (['$', '$'].isPrefixOf ('$' :: '$' :: content2)) = true from by
          simp [List.isPrefixOf]] at hinf
        exact Bool.noConfusion hinf
      rw [List.cons_append, findBlockClose_cons, if_neg hy,
        ih (x :: acc) r (by simp) (by
          rw [hasInfix_cons] at hinf
          exact (Bool.or_eq_false_iff.mp hinf).2) (by
          rw [List.getLast?_cons_cons] at hlast
          exact hlast)]
      simp

theorem blockGo_cons (cnt : Nat) (c : Char) (rest : List Char) :
    blockGo cnt 0 (c :: rest) =
      if c = '$' ∧ rest.head? = some '$' then
        match findBlockClose [] rest.tail with
        | some (content, _) =>
          (blockKey cnt ++ (blockGo (cnt+1) (content.length + 3) rest).1,
            (blockKey cnt, '$' :: '$' :: (content ++ ['$', '$'])) ::
              (blockGo (cnt+1) (content.length + 3) rest).2.1,
            (blockGo (cnt+1) (content.length + 3) rest).2.2)
        | none => ('$' :: (blockGo cnt 0 rest).1, (blockGo cnt 0 rest).2.1,
            (blockGo cnt 0 rest).2.2)
      else (c :: (blockGo cnt 0 rest).1, (blockGo cnt 0 rest).2.1,
        (blockGo cnt 0 rest).2.2) := rfl

theorem blockGo_lit : ∀ (s : List Char) (cnt : Nat) (r : List Char), noDollar s = true →
    blockGo cnt 0 (s ++ r) =
      (s ++ (blockGo cnt 0 r).1, (blockGo cnt 0 r).2.1, (blockGo cnt 0 r).2.2) := by
  intro s
  induction s with
  | nil => intro cnt r _; rfl
  | cons c s ih =>
    intro cnt r hnd
    obtain ⟨hc, hs⟩ := noDollar_cons hnd
    rw [List.cons_append, blockGo_cons, if_neg (fun h => hc h.1), ih cnt r hs]
    rfl

theorem blockGo_inline : ∀ (content : List Char) (cnt : Nat) (r : List Char),
    content ≠ [] → noDollar content = true → r.head? ≠ some '$' →
    blockGo cnt 0 (('$' :: (content ++ ['$'])) ++ r) =
      (('$' :: (content ++ ['$'])) ++ (blockGo cnt 0 r).1,
        (blockGo cnt 0 r).2.1, (blockGo cnt 0 r).2.2) := by
  intro content cnt r hne hnd hr
  have harr : ('$' :: (content ++ ['$'])) ++ r = '$' :: (content ++ ('$' :: r)) := by simp
  rw [harr, blockGo_cons, if_neg]
  · rw [blockGo_lit content cnt ('$' :: r) hnd, blockGo_cons, if_neg (fun h => hr h.2)]
    simp
  · rintro ⟨-, h2⟩
    cases content with
    | nil => exact absurd rfl hne
    | cons a as =>
      simp only [List.cons_append, List.head?_cons, Option.some.injEq] at h2
      exact (noDollar_cons hnd).1 h2

theorem ne_nil_of_isEmpty_eq_false {s : List Char} (h : s.isEmpty = false) : s ≠ [] := by
  intro he
  subst he
  simp at h

theorem chunkWF_lit {s : List Char} (h : chunkWF (Chunk.lit s) = true) :
    s ≠ [] ∧ noDollar s = true ∧ mathFree s = true := by
  simp only [chunkWF, Bool.and_eq_true, Bool.not_eq_true'] at h
  exact ⟨ne_nil_of_isEmpty_eq_false h.1.1, h.1.2, h.2⟩

theorem chunkWF_block {c : List Char} (h : chunkWF (Chunk.blockM c) = true) :
    c ≠ [] ∧ hasInfix ['$', '$'] c = false ∧ c.getLast? ≠ some '$' ∧ mathFree c = true := by
  simp only [chunkWF, Bool.and_eq_true, Bool.not_eq_true'] at h
  refine ⟨ne_nil_of_isEmpty_eq_false h.1.1.1, h.1.1.2, ?_, h.2⟩
  exact of_decide_eq_false h.1.2

theorem chunkWF_inline {c : List Char} (h : chunkWF (Chunk.inlineM c) = true) :
    c ≠ [] ∧ noDollar c = true ∧ c.all (fun ch => ch ≠ '\n') = true ∧ mathFree c = true := by
  simp only [chunkWF, Bool.and_eq_true, Bool.not_eq_true'] at h
  exact ⟨ne_nil_of_isEmpty_eq_false h.1.1.1, h.1.1.2, h.1.2, h.2⟩

theorem blockGo_chunks : ∀ (cs : List Chunk) (cnt : Nat),
    cs.all chunkWF = true → sepOK cs = true →
    blockGo cnt 0 (renderChunks cs) =
      (midRender cnt cs, blockTable cnt cs, cnt + blockCount cs) := by
  intro cs
  induction cs with
  | nil => intro cnt _ _; rfl
  | cons ch cs ih =>
    intro cnt hwf hsep
    have hwf1 : chunkWF ch = true := by
      simp only [List.all_cons, Bool.and_eq_true] at hwf
      exact hwf.1
    have hwf2 : cs.all chunkWF = true := by
      simp only [List.all_cons, Bool.and_eq_true] at hwf
      exact hwf.2
    have hsep2 : sepOK cs = true := sepOK_tail ch cs hsep
    cases ch with
    | lit s =>
      obtain ⟨-, hnd, -⟩ := chunkWF_lit hwf1
      rw [renderChunks_cons, show Chunk.render (Chunk.lit s) = s from rfl,
        blockGo_lit s cnt _ hnd, ih cnt hwf2 hsep2]
      rfl
    | blockM c =>
      obtain ⟨hne, hinf, hlast, -⟩ := chunkWF_block hwf1
      rw [renderChunks_cons, show Chunk.render (Chunk.blockM c) = '$' :: '$' :: (c ++ ['$', '$'])
        from rfl]
      have harr : ('$' :: '$' :: (c ++ ['$', '$'])) ++ renderChunks cs =
          '$' :: ('$' :: (c ++ '$' :: '$' :: renderChunks cs)) := by simp
      rw [harr, blockGo_cons, if_pos ⟨rfl, rfl⟩]
      simp only [List.tail_cons]
      rw [findBlockClose_exact c [] (renderChunks cs) hne hinf hlast]
      simp only [List.reverse_nil, List.nil_append]
      have hskip := blockGo_skip ('$' :: (c ++ ['$', '$'])) (cnt+1) (renderChunks cs)
      have hlen : ('$' :: (c ++ ['$', '$'])).length = c.length + 3 := by simp
      have harr2 : ('$' :: (c ++ ['$', '$'])) ++ renderChunks cs =
          '$' :: (c ++ '$' :: '$' :: renderChunks cs) := by simp
      rw [hlen, harr2] at hskip
      rw [hskip, ih (cnt+1) hwf2 hsep2]
      simp only [midRender, blockTable, blockCount, Prod.mk.injEq, and_true, true_and]
      omega
    | inlineM c =>
      obtain ⟨hne, hnd, -, -⟩ := chunkWF_inline hwf1
      rw [renderChunks_cons, show Chunk.render (Chunk.inlineM c) = '$' :: (c ++ ['$']) from rfl]
      have hr : (renderChunks cs).head? ≠ some '$' := by
        cases cs with
        | nil => simp [renderChunks]
        | cons ch2 cs2 =>
          cases ch2 with
          | lit s2 =>
            have hwf3 : chunkWF (Chunk.lit s2) = true := by
              simp only [List.all_cons, Bool.and_eq_true] at hwf2
              exact hwf2.1
            obtain ⟨hne2, hnd2, -⟩ := chunkWF_lit hwf3
            rw [renderChunks_cons]
            cases s2 with
            | nil => exact absurd rfl hne2
            | cons a as =>
              simp only [show Chunk.render (Chunk.lit (a :: as)) = a :: as from rfl,
                List.cons_append, List.head?_cons, ne_eq, Option.some.injEq]
              exact (noDollar_cons hnd2).1
          | blockM c2 =>
            exfalso
            simp only [sepOK, Bool.and_eq_true] at hsep
            exact Bool.noConfusion hsep.1
          | inlineM c2 =>
            exfalso
            simp only [sepOK, Bool.and_eq_true] at hsep
            exact Bool.noConfusion hsep.1
      rw [blockGo_inline c cnt (renderChunks cs) hne hnd hr, ih cnt hwf2 hsep2]
      rfl

/-! ### C1: the inline pass on the block-protected text -/

theorem lastPrev_nil (prev : Option Char) : lastPrev prev [] = prev := rfl

theorem lastPrev_cons (prev : Option Char) (c : Char) (m : List Char) :
    lastPrev prev (c :: m) = lastPrev (some c) m := by
  cases m with
  | nil => rfl
  | cons d m2 =>
    simp only [lastPrev, List.getLast?_cons_cons]
    cases h : (d :: m2).getLast? with
    | none => exact absurd (List.getLast?_eq_none_iff.mp h) (by simp)
    | some e => rfl

theorem lastPrev_noDollar : ∀ (s : List Char), noDollar s = true → s ≠ [] →
    ∀ prev, lastPrev prev s ≠ some '$' := by
  intro s
  induction s with
  | nil => intro _ h; exact absurd rfl h
  | cons c t ih =>
    intro hnd _ prev
    rw [lastPrev_cons]
    cases t with
    | nil =>
      intro he
      rw [lastPrev_nil] at he
      exact (noDollar_cons hnd).1 (Option.some.inj he)
    | cons d t2 => exact ih (noDollar_cons hnd).2 (by simp) (some c)

theorem inlineGo_cons (cnt : Nat) (prev : Option Char) (c : Char) (rest : List Char) :
    inlineGo cnt prev 0 (c :: rest) =
      if c = '$' ∧ prev ≠ some '$' ∧ rest.head? ≠ some '$' then
        match findInlineClose [] rest with
        | some (content, _) =>
          (inlineKey cnt ++ (inlineGo (cnt+1) (some '$') (content.length + 1) rest).1,
            (inlineKey cnt, '$' :: (content ++ ['$'])) ::
              (inlineGo (cnt+1) (some '$') (content.length + 1) rest).2.1,
            (inlineGo (cnt+1) (some '$') (content.length + 1) rest).2.2)
        | none => (c :: (inlineGo cnt (some c) 0 rest).1, (inlineGo cnt (some c) 0 rest).2.1,
            (inlineGo cnt (some c) 0 rest).2.2)
      else (c :: (inlineGo cnt (some c) 0 rest).1, (inlineGo cnt (some c) 0 rest).2.1,
        (inlineGo cnt (some c) 0 rest).2.2) := rfl

theorem inlineGo_skip : ∀ (m : List Char) (cnt : Nat) (prev : Option Char) (r : List Char),
    inlineGo cnt prev m.length (m ++ r) = inlineGo cnt (lastPrev prev m) 0 r := by
  intro m
  induction m with
  | nil => intro cnt prev r; rfl
  | cons c m ih =>
    intro cnt prev r
    rw [lastPrev_cons]
    exact ih cnt (some c) r

theorem inlineGo_lit : ∀ (s : List Char) (cnt : Nat) (prev : Option Char) (r : List Char),
    noDollar s = true →
    inlineGo cnt prev 0 (s ++ r) =
      (s ++ (inlineGo cnt (lastPrev prev s) 0 r).1,
        (inlineGo cnt (lastPrev prev s) 0 r).2.1,
        (inlineGo cnt (lastPrev prev s) 0 r).2.2) := by
  intro s
  induction s with
  | nil => intro cnt prev r _; rfl
  | cons c s ih =>
    intro cnt prev r hnd
    obtain ⟨hc, hs⟩ := noDollar_cons hnd
    rw [List.cons_append, inlineGo_cons, if_neg (fun h => hc h.1), ih cnt (some c) r hs,
      lastPrev_cons]
    rfl

theorem findInlineClose_cons (acc : List Char) (c : Char) (rest : List Char) :
    findInlineClose acc (c :: rest) =
      if c = '$' then
        if rest.head? = some '$' then findInlineClose ('$' :: acc) rest
        else if acc.isEmpty then none else some (acc.reverse, rest)
      else if c = '\n' then none
      else findInlineClose (c :: acc) rest := rfl

theorem findInlineClose_exact : ∀ (content acc r : List Char),
    (content ≠ [] ∨ acc ≠ []) → noDollar content = true →
    content.all (fun ch => ch ≠ '\n') = true → r.head? ≠ some '$' →
    findInlineClose acc (content ++ '$' :: r) = some (acc.reverse ++ content, r) := by
  intro content
  induction content with
  | nil =>
    intro acc r hne _ _ hr
    rw [List.nil_append, findInlineClose_cons, if_pos rfl, if_neg hr, if_neg]
    · simp
    · rcases hne with h | h
      · exact absurd rfl h
      · cases acc with
        | nil => exact absurd rfl h
        | cons a t => simp
  | cons x content ih =>
    intro acc r hne hnd hnl hr
    have hx : x ≠ '$' := (noDollar_cons hnd).1
    have hxn : x ≠ '\n' := by
      simp only [List.all_cons, Bool.and_eq_true, decide_eq_true_eq] at hnl
      exact hnl.1
    have hnl2 : content.all (fun ch => ch ≠ '\n') = true := by
      simp only [List.all_cons, Bool.and_eq_true] at hnl
      exact hnl.2
    rw [List.cons_append, findInlineClose_cons, if_neg hx, if_neg hxn,
      ih (x :: acc) r (Or.inr (by simp)) (noDollar_cons hnd).2 hnl2 hr]
    simp

theorem inlineGo_inline : ∀ (content : List Char) (cnt : Nat) (prev : Option Char)
    (r : List Char),
    content ≠ [] → noDollar content = true → content.all (fun ch => ch ≠ '\n') = true →
    prev ≠ some '$' → r.head? ≠ some '$' →
    inlineGo cnt prev 0 (('$' :: (content ++ ['$'])) ++ r) =
      (inlineKey cnt ++ (inlineGo (cnt+1) (some '$') 0 r).1,
        (inlineKey cnt, '$' :: (content ++ ['$'])) :: (inlineGo (cnt+1) (some '$') 0 r).2.1,
        (inlineGo (cnt+1) (some '$') 0 r).2.2) := by
  intro content cnt prev r hne hnd hnl hprev hr
  have harr : ('$' :: (content ++ ['$'])) ++ r = '$' :: (content ++ ('$' :: r)) := by simp
  rw [harr, inlineGo_cons, if_pos]
  · rw [findInlineClose_exact content [] r (Or.inl hne) hnd hnl hr]
    simp only [List.reverse_nil, List.nil_append]
    have hskip := inlineGo_skip (content ++ ['$']) (cnt+1) (some '$') r
    have hlen : (content ++ ['$']).length = content.length + 1 := by simp
    have harr2 : (content ++ ['$']) ++ r = content ++ ('$' :: r) := by simp
    have hlp : lastPrev (some '$') (content ++ ['$']) = some '$' := by
      simp [lastPrev, List.getLast?_concat]
    rw [hlen, harr2, hlp] at hskip
    rw [hskip]
  · refine ⟨rfl, hprev, ?_⟩
    cases content with
    | nil => exact absurd rfl hne
    | cons a as =>
      simp only [List.cons_append, List.head?_cons, ne_eq, Option.some.injEq]
      exact (noDollar_cons hnd).1

theorem blockKey_ne_nil (n : Nat) : blockKey n ≠ [] := by
  rw [blockKey_cons]
  simp

theorem prevOK_none : ∀ (cs : List Chunk), prevOK none cs := by
  intro cs
  cases cs with
  | nil => trivial
  | cons ch cs2 =>
    cases ch with
    | lit s => trivial
    | blockM c => trivial
    | inlineM c => simp [prevOK]

theorem inlineGo_chunks : ∀ (cs : List Chunk) (b i : Nat) (prev : Option Char),
    cs.all chunkWF = true → sepOK cs = true → prevOK prev cs →
    inlineGo i prev 0 (midRender b cs) =
      (protRender b i cs, inlineTable i cs, i + inlineCount cs) := by
  intro cs
  induction cs with
  | nil => intro b i prev _ _ _; rfl
  | cons ch cs ih =>
    intro b i prev hwf hsep hprev
    have hwf1 : chunkWF ch = true := by
      simp only [List.all_cons, Bool.and_eq_true] at hwf
      exact hwf.1
    have hwf2 : cs.all chunkWF = true := by
      simp only [List.all_cons, Bool.and_eq_true] at hwf
      exact hwf.2
    have hsep2 : sepOK cs = true := sepOK_tail ch cs hsep
    cases ch with
    | lit s =>
      obtain ⟨hne, hnd, -⟩ := chunkWF_lit hwf1
      have hp : prevOK (lastPrev prev s) cs := by
        cases cs with
        | nil => trivial
        | cons ch2 cs2 =>
          cases ch2 with
          | lit s2 => trivial
          | blockM c2 => trivial
          | inlineM c2 => exact lastPrev_noDollar s hnd hne prev
      rw [show midRender b (Chunk.lit s :: cs) = s ++ midRender b cs from rfl,
        inlineGo_lit s i prev _ hnd, ih b i (lastPrev prev s) hwf2 hsep2 hp]
      rfl
    | blockM c =>
      have hp : prevOK (lastPrev prev (blockKey b)) cs := by
        cases cs with
        | nil => trivial
        | cons ch2 cs2 =>
          cases ch2 with
          | lit s2 => trivial
          | blockM c2 => trivial
          | inlineM c2 =>
            exact lastPrev_noDollar (blockKey b) (noDollar_blockKey b) (blockKey_ne_nil b) prev
      rw [show midRender b (Chunk.blockM c :: cs) = blockKey b ++ midRender (b+1) cs from rfl,
        inlineGo_lit (blockKey b) i prev _ (noDollar_blockKey b),
        ih (b+1) i (lastPrev prev (blockKey b)) hwf2 hsep2 hp]
      rfl
    | inlineM c =>
      obtain ⟨hne, hnd, hnl, -⟩ := chunkWF_inline hwf1
      have hprev2 : prev ≠ some '$' := hprev
      have hr : (midRender b cs).head? ≠ some '$' := by
        cases cs with
        | nil => simp [midRender]
        | cons ch2 cs2 =>
          cases ch2 with
          | lit s2 =>
            have hwf3 : chunkWF (Chunk.lit s2) = true := by
              simp only [List.all_cons, Bool.and_eq_true] at hwf2
              exact hwf2.1
            obtain ⟨hne2, hnd2, -⟩ := chunkWF_lit hwf3
            rw [show midRender b (Chunk.lit s2 :: cs2) = s2 ++ midRender b cs2 from rfl]
            cases s2 with
            | nil => exact absurd rfl hne2
            | cons a as =>
              simp only [List.cons_append, List.head?_cons, ne_eq, Option.some.injEq]
              exact (noDollar_cons hnd2).1
          | blockM c2 =>
            exfalso
            simp only [sepOK, Bool.and_eq_true] at hsep
            exact Bool.noConfusion hsep.1
          | inlineM c2 =>
            exfalso
            simp only [sepOK, Bool.and_eq_true] at hsep
            exact Bool.noConfusion hsep.1
      have hp : prevOK (some '$') cs := by
        cases cs with
        | nil => trivial
        | cons ch2 cs2 =>
          cases ch2 with
          | lit s2 => trivial
          | blockM c2 =>
            exfalso
            simp only [sepOK, Bool.and_eq_true] at hsep
            exact Bool.noConfusion hsep.1
          | inlineM c2 =>
            exfalso
            simp only [sepOK, Bool.and_eq_true] at hsep
            exact Bool.noConfusion hsep.1
      rw [show midRender b (Chunk.inlineM c :: cs) = ('$' :: (c ++ ['$'])) ++ midRender b cs
        from rfl,
        inlineGo_inline c i prev _ hne hnd hnl hprev2 hr,
        ih b (i+1) (some '$') hwf2 hsep2 hp]
      simp only [protRender, inlineTable, inlineCount, Prod.mk.injEq, and_true, true_and]
      omega

theorem protect_math_chunks (cs : List Chunk) (hwf : cs.all chunkWF = true)
    (hsep : sepOK cs = true) :
    protect_math (renderChunks cs) =
      (protRender 0 (blockCount cs) cs,
        blockTable 0 cs ++ inlineTable (blockCount cs) cs) := by
  simp only [protect_math]
  rw [blockGo_chunks cs 0 hwf hsep]
  dsimp only
  rw [Nat.zero_add, inlineGo_chunks cs 0 (blockCount cs) none hwf hsep (prevOK_none cs)]

/-! ### C1: the restore fold over the placeholder table -/

theorem stateRender_bt_irrel : ∀ (cs : List Chunk) (b i bt bt2 it : Nat),
    bt ≤ b → bt2 ≤ b →
    stateRender b i bt it cs = stateRender b i bt2 it cs := by
  intro cs
  induction cs with
  | nil => intro b i bt bt2 it _ _; rfl
  | cons ch cs ih =>
    intro b i bt bt2 it h1 h2
    cases ch with
    | lit s =>
      simp only [stateRender]
      rw [ih b i bt bt2 it h1 h2]
    | blockM c =>
      simp only [stateRender]
      rw [if_neg (by omega), if_neg (by omega), ih (b+1) i bt bt2 it (by omega) (by omega)]
    | inlineM c =>
      simp only [stateRender]
      rw [ih b (i+1) bt bt2 it h1 h2]

theorem stateRender_init : ∀ (cs : List Chunk) (b i it : Nat), it ≤ i →
    stateRender b i 0 it cs = protRender b i cs := by
  intro cs
  induction cs with
  | nil => intro b i it _; rfl
  | cons ch cs ih =>
    intro b i it hit
    cases ch with
    | lit s =>
      simp only [stateRender, protRender]
      rw [ih b i it hit]
    | blockM c =>
      simp only [stateRender, protRender]
      rw [if_neg (by omega), ih (b+1) i it hit]
    | inlineM c =>
      simp only [stateRender, protRender]
      rw [if_neg (by omega), ih b (i+1) it (by omega)]

theorem stateRender_final : ∀ (cs : List Chunk) (b i bt it : Nat),
    b + blockCount cs ≤ bt → i + inlineCount cs ≤ it →
    stateRender b i bt it cs = renderChunks cs := by
  intro cs
  induction cs with
  | nil => intro b i bt it _ _; rfl
  | cons ch cs ih =>
    intro b i bt it hb hi
    cases ch with
    | lit s =>
      rw [renderChunks_cons]
      simp only [blockCount] at hb
      simp only [inlineCount] at hi
      simp only [stateRender]
      rw [ih b i bt it hb hi]
      rfl
    | blockM c =>
      rw [renderChunks_cons]
      simp only [blockCount] at hb
      simp only [inlineCount] at hi
      simp only [stateRender]
      rw [if_pos (by omega), ih (b+1) i bt it (by omega) hi]
      rfl
    | inlineM c =>
      rw [renderChunks_cons]
      simp only [blockCount] at hb
      simp only [inlineCount] at hi
      simp only [stateRender]
      rw [if_pos (by omega), ih b (i+1) bt it hb (by omega)]
      rfl

theorem blockTable_eq : ∀ (cs : List Chunk) (b : Nat),
    blockTable b cs = (List.range (blockCount cs)).map
      (fun j => (blockKey (b + j), '$' :: '$' :: (blockContentAt cs j ++ ['$', '$']))) := by
  intro cs
  induction cs with
  | nil => intro b; rfl
  | cons ch cs ih =>
    intro b
    cases ch with
    | lit s =>
      simp only [blockTable, blockCount, blockContentAt]
      exact ih b
    | blockM c =>
      simp only [blockTable, blockCount]
      rw [ih (b+1), List.range_succ_eq_map]
      simp only [List.map_cons, List.map_map]
      congr 1
      refine List.map_congr_left ?_
      intro j hj
      simp only [Function.comp_apply, Nat.succ_eq_add_one, blockContentAt]
      have harith : b + (j + 1) = b + 1 + j := by omega
      rw [harith]
    | inlineM c =>
      simp only [blockTable, blockCount, blockContentAt]
      exact ih b

theorem inlineTable_eq : ∀ (cs : List Chunk) (i : Nat),
    inlineTable i cs = (List.range (inlineCount cs)).map
      (fun j => (inlineKey (i + j), '$' :: (inlineContentAt cs j ++ ['$']))) := by
  intro cs
  induction cs with
  | nil => intro i; rfl
  | cons ch cs ih =>
    intro i
    cases ch with
    | lit s =>
      simp only [inlineTable, inlineCount, inlineContentAt]
      exact ih i
    | blockM c =>
      simp only [inlineTable, inlineCount, inlineContentAt]
      exact ih i
    | inlineM c =>
      simp only [inlineTable, inlineCount]
      rw [ih (i+1), List.range_succ_eq_map]
      simp only [List.map_cons, List.map_map]
      congr 1
      refine List.map_congr_left ?_
      intro j hj
      simp only [Function.comp_apply, Nat.succ_eq_add_one, inlineContentAt]
      have harith : i + (j + 1) = i + 1 + j := by omega
      rw [harith]

theorem foldl_pyReplace_steps : ∀ (n : Nat) (key body : Nat → List Char)
    (S : Nat → List Char),
    (∀ j, j < n → pyReplace (key j) (body j) 0 (S j) = S (j+1)) →
    List.foldl (fun t kv => pyReplace kv.1 kv.2 0 t) (S 0)
      ((List.range n).map (fun j => (key j, body j))) = S n := by
  intro n
  induction n with
  | zero => intro key body S _; rfl
  | succ n ih =>
    intro key body S hstep
    rw [List.range_succ, List.map_append, List.foldl_append,
      ih key body S (fun j hj => hstep j (by omega))]
    simp only [List.map_cons, List.map_nil, List.foldl_cons, List.foldl_nil]
    exact hstep n (by omega)

theorem allWF_cons {ch : Chunk} {cs : List Chunk} (h : (ch :: cs).all chunkWF = true) :
    chunkWF ch = true ∧ cs.all chunkWF = true := by
  simpa [List.all_cons, Bool.and_eq_true] using h

theorem sepOK_lit_next : ∀ (s : List Char) (cs : List Chunk),
    sepOK (Chunk.lit s :: cs) = true → ∀ s2 cs2, cs ≠ Chunk.lit s2 :: cs2 := by
  intro s cs h s2 cs2 he
  subst he
  simp only [sepOK, Bool.and_eq_true] at h
  exact Bool.noConfusion h.1

theorem headMB_state : ∀ (cs : List Chunk) (b i bt it : Nat),
    (∀ s cs2, cs ≠ Chunk.lit s :: cs2) → headMB (stateRender b i bt it cs) := by
  intro cs b i bt it h
  cases cs with
  | nil => exact Or.inl rfl
  | cons ch cs2 =>
    cases ch with
    | lit s => exact absurd rfl (h s cs2)
    | blockM c =>
      rw [show stateRender b i bt it (Chunk.blockM c :: cs2) =
        (if b < bt then '$' :: '$' :: (c ++ ['$', '$']) else blockKey b) ++
          stateRender (b+1) i bt it cs2 from rfl]
      by_cases hb : b < bt
      · rw [if_pos hb]
        exact Or.inr (Or.inr rfl)
      · rw [if_neg hb, blockKey_cons b]
        exact Or.inr (Or.inl rfl)
    | inlineM c =>
      rw [show stateRender b i bt it (Chunk.inlineM c :: cs2) =
        (if i < it then '$' :: (c ++ ['$']) else inlineKey i) ++
          stateRender b (i+1) bt it cs2 from rfl]
      by_cases hi : i < it
      · rw [if_pos hi]
        exact Or.inr (Or.inr rfl)
      · rw [if_neg hi, inlineKey_cons i]
        exact Or.inr (Or.inl rfl)

theorem restore_passed_block : ∀ (cs : List Chunk) (b i bt it j : Nat) (rep : List Char),
    cs.all chunkWF = true → sepOK cs = true →
    j < b → j < 10000 → b + blockCount cs ≤ 10000 →
    pyReplace (blockKey j) rep 0 (stateRender b i bt it cs) = stateRender b i bt it cs := by
  intro cs
  induction cs with
  | nil => intro b i bt it j rep _ _ _ _ _; rfl
  | cons ch cs ih =>
    intro b i bt it j rep hwf hsep hj hj4 hb
    obtain ⟨hwf1, hwf2⟩ := allWF_cons hwf
    have hsep2 := sepOK_tail ch cs hsep
    cases ch with
    | lit s =>
      obtain ⟨-, -, hmf⟩ := chunkWF_lit hwf1
      rw [show stateRender b i bt it (Chunk.lit s :: cs) =
        s ++ stateRender b i bt it cs from rfl,
        blockKey_shape j,
        pyReplace_mathFree s _ rep _ hmf (headMB_state cs b i bt it (sepOK_lit_next s cs hsep)),
        ← blockKey_shape j,
        ih b i bt it j rep hwf2 hsep2 hj hj4 (by simp only [blockCount] at hb; exact hb)]
    | blockM c =>
      obtain ⟨-, -, -, hmf⟩ := chunkWF_block hwf1
      rw [show stateRender b i bt it (Chunk.blockM c :: cs) =
        (if b < bt then '$' :: '$' :: (c ++ ['$', '$']) else blockKey b) ++
          stateRender (b+1) i bt it cs from rfl]
      have hbc : b + 1 + blockCount cs ≤ 10000 := by
        simp only [blockCount] at hb
        omega
      by_cases hlt : b < bt
      · rw [if_pos hlt, blockKey_shape j, pyReplace_body c _ rep _ hmf, ← blockKey_shape j,
          ih (b+1) i bt it j rep hwf2 hsep2 (by omega) hj4 hbc]
      · rw [if_neg hlt,
          passB_block j b rep _ (by omega) hj4 (by simp only [blockCount] at hb; omega),
          ih (b+1) i bt it j rep hwf2 hsep2 (by omega) hj4 hbc]
    | inlineM c =>
      obtain ⟨-, -, -, hmf⟩ := chunkWF_inline hwf1
      rw [show stateRender b i bt it (Chunk.inlineM c :: cs) =
        (if i < it then '$' :: (c ++ ['$']) else inlineKey i) ++
          stateRender b (i+1) bt it cs from rfl]
      have hbc : b + blockCount cs ≤ 10000 := by
        simp only [blockCount] at hb
        exact hb
      by_cases hlt : i < it
      · rw [if_pos hlt, blockKey_shape j, pyReplace_ibody c _ rep _ hmf, ← blockKey_shape j,
          ih b (i+1) bt it j rep hwf2 hsep2 hj hj4 hbc]
      · rw [if_neg hlt, passB_inline j i rep _,
          ih b (i+1) bt it j rep hwf2 hsep2 hj hj4 hbc]

theorem restore_passed_inline : ∀ (cs : List Chunk) (b i bt it j : Nat) (rep : List Char),
    cs.all chunkWF = true → sepOK cs = true →
    j < i → j < 10000 → i + inlineCount cs ≤ 10000 →
    pyReplace (inlineKey j) rep 0 (stateRender b i bt it cs) = stateRender b i bt it cs := by
  intro cs
  induction cs with
  | nil => intro b i bt it j rep _ _ _ _ _; rfl
  | cons ch cs ih =>
    intro b i bt it j rep hwf hsep hj hj4 hi
    obtain ⟨hwf1, hwf2⟩ := allWF_cons hwf
    have hsep2 := sepOK_tail ch cs hsep
    cases ch with
    | lit s =>
      obtain ⟨-, -, hmf⟩ := chunkWF_lit hwf1
      rw [show stateRender b i bt it (Chunk.lit s :: cs) =
        s ++ stateRender b i bt it cs from rfl,
        inlineKey_shape j,
        pyReplace_mathFree s _ rep _ hmf (headMB_state cs b i bt it (sepOK_lit_next s cs hsep)),
        ← inlineKey_shape j,
        ih b i bt it j rep hwf2 hsep2 hj hj4 (by simp only [inlineCount] at hi; exact hi)]
    | blockM c =>
      obtain ⟨-, -, -, hmf⟩ := chunkWF_block hwf1
      rw [show stateRender b i bt it (Chunk.blockM c :: cs) =
        (if b < bt then '$' :: '$' :: (c ++ ['$', '$']) else blockKey b) ++
          stateRender (b+1) i bt it cs from rfl]
      have hic : i + inlineCount cs ≤ 10000 := by
        simp only [inlineCount] at hi
        exact hi
      by_cases hlt : b < bt
      · rw [if_pos hlt, inlineKey_shape j, pyReplace_body c _ rep _ hmf, ← inlineKey_shape j,
          ih (b+1) i bt it j rep hwf2 hsep2 hj hj4 hic]
      · rw [if_neg hlt, passI_block j b rep _,
          ih (b+1) i bt it j rep hwf2 hsep2 hj hj4 hic]
    | inlineM c =>
      obtain ⟨-, -, -, hmf⟩ := chunkWF_inline hwf1
      rw [show stateRender b i bt it (Chunk.inlineM c :: cs) =
        (if i < it then '$' :: (c ++ ['$']) else inlineKey i) ++
          stateRender b (i+1) bt it cs from rfl]
      have hic : i + 1 + inlineCount cs ≤ 10000 := by
        simp only [inlineCount] at hi
        omega
      by_cases hlt : i < it
      · rw [if_pos hlt, inlineKey_shape j, pyReplace_ibody c _ rep _ hmf, ← inlineKey_shape j,
          ih b (i+1) bt it j rep hwf2 hsep2 (by omega) hj4 hic]
      · rw [if_neg hlt,
          passI_inline j i rep _ (by omega) hj4 (by simp only [inlineCount] at hi; omega),
          ih b (i+1) bt it j rep hwf2 hsep2 (by omega) hj4 hic]

theorem inlineKey_ne_nil (n : Nat) : inlineKey n ≠ [] := by
  rw [inlineKey_cons]
  simp

theorem stateRender_it_irrel : ∀ (cs : List Chunk) (b i bt it it2 : Nat),
    it ≤ i → it2 ≤ i →
    stateRender b i bt it cs = stateRender b i bt it2 cs := by
  intro cs
  induction cs with
  | nil => intro b i bt it it2 _ _; rfl
  | cons ch cs ih =>
    intro b i bt it it2 h1 h2
    cases ch with
    | lit s =>
      simp only [stateRender]
      rw [ih b i bt it it2 h1 h2]
    | blockM c =>
      simp only [stateRender]
      rw [ih (b+1) i bt it it2 h1 h2]
    | inlineM c =>
      simp only [stateRender]
      rw [if_neg (by omega), if_neg (by omega), ih b (i+1) bt it it2 (by omega) (by omega)]

theorem restore_target_block : ∀ (cs : List Chunk) (b i it k : Nat),
    cs.all chunkWF = true → sepOK cs = true →
    k < blockCount cs → b + blockCount cs ≤ 10000 → it ≤ i →
    pyReplace (blockKey (b + k)) ('$' :: '$' :: (blockContentAt cs k ++ ['$', '$'])) 0
      (stateRender b i (b + k) it cs) = stateRender b i (b + k + 1) it cs := by
  intro cs
  induction cs with
  | nil => intro b i it k _ _ hk _ _; simp [blockCount] at hk
  | cons ch cs ih =>
    intro b i it k hwf hsep hk hb hit
    obtain ⟨hwf1, hwf2⟩ := allWF_cons hwf
    have hsep2 := sepOK_tail ch cs hsep
    cases ch with
    | lit s =>
      obtain ⟨-, -, hmf⟩ := chunkWF_lit hwf1
      rw [show stateRender b i (b + k) it (Chunk.lit s :: cs) =
        s ++ stateRender b i (b + k) it cs from rfl,
        show stateRender b i (b + k + 1) it (Chunk.lit s :: cs) =
        s ++ stateRender b i (b + k + 1) it cs from rfl,
        show blockContentAt (Chunk.lit s :: cs) k = blockContentAt cs k from rfl,
        blockKey_shape (b + k),
        pyReplace_mathFree s _ _ _ hmf
          (headMB_state cs b i (b + k) it (sepOK_lit_next s cs hsep)),
        ← blockKey_shape (b + k),
        ih b i it k hwf2 hsep2 (by simp only [blockCount] at hk; exact hk)
          (by simp only [blockCount] at hb; exact hb) hit]
    | blockM c =>
      obtain ⟨-, -, -, hmfB⟩ := chunkWF_block hwf1
      cases k with
      | zero =>
        have hb4 : b < 10000 := by
          simp only [blockCount] at hb
          omega
        rw [show stateRender b i (b + 0) it (Chunk.blockM c :: cs) =
          (if b < b + 0 then '$' :: '$' :: (c ++ ['$', '$']) else blockKey b) ++
            stateRender (b+1) i (b + 0) it cs from rfl,
          if_neg (by omega),
          show blockContentAt (Chunk.blockM c :: cs) 0 = c from rfl,
          Nat.add_zero,
          show stateRender b i (b + 1) it (Chunk.blockM c :: cs) =
          (if b < b + 1 then '$' :: '$' :: (c ++ ['$', '$']) else blockKey b) ++
            stateRender (b+1) i (b + 1) it cs from rfl,
          if_pos (by omega),
          pyReplace_at_key (blockKey b) _ _ (blockKey_ne_nil b),
          restore_passed_block cs (b+1) i b it b _ hwf2 hsep2 (by omega) hb4
            (by simp only [blockCount] at hb; omega),
          stateRender_bt_irrel cs (b+1) i b (b+1) it (by omega) (by omega)]
      | succ k2 =>
        rw [show stateRender b i (b + (k2+1)) it (Chunk.blockM c :: cs) =
          (if b < b + (k2+1) then '$' :: '$' :: (c ++ ['$', '$']) else blockKey b) ++
            stateRender (b+1) i (b + (k2+1)) it cs from rfl,
          if_pos (by omega),
          show stateRender b i (b + (k2+1) + 1) it (Chunk.blockM c :: cs) =
          (if b < b + (k2+1) + 1 then '$' :: '$' :: (c ++ ['$', '$']) else blockKey b) ++
            stateRender (b+1) i (b + (k2+1) + 1) it cs from rfl,
          if_pos (by omega),
          show blockContentAt (Chunk.blockM c :: cs) (k2+1) = blockContentAt cs k2 from rfl,
          blockKey_shape (b + (k2+1)),
          pyReplace_body c _ _ _ hmfB,
          ← blockKey_shape (b + (k2+1))]
        have harith : b + (k2 + 1) = (b + 1) + k2 := by omega
        rw [harith,
          ih (b+1) i it k2 hwf2 hsep2 (by simp only [blockCount] at hk; omega)
            (by simp only [blockCount] at hb; omega) hit]
    | inlineM c =>
      obtain ⟨-, -, -, hmfI⟩ := chunkWF_inline hwf1
      rw [show stateRender b i (b + k) it (Chunk.inlineM c :: cs) =
        (if i < it then '$' :: (c ++ ['$']) else inlineKey i) ++
          stateRender b (i+1) (b + k) it cs from rfl,
        show stateRender b i (b + k + 1) it (Chunk.inlineM c :: cs) =
        (if i < it then '$' :: (c ++ ['$']) else inlineKey i) ++
          stateRender b (i+1) (b + k + 1) it cs from rfl,
        if_neg (by omega),
        show blockContentAt (Chunk.inlineM c :: cs) k = blockContentAt cs k from rfl,
        passB_inline (b + k) i _ _,
        ih b (i+1) it k hwf2 hsep2 (by simp only [blockCount] at hk; exact hk)
          (by simp only [blockCount] at hb; exact hb) (by omega)]

theorem restore_target_inline : ∀ (cs : List Chunk) (b i bt k : Nat),
    cs.all chunkWF = true → sepOK cs = true →
    k < inlineCount cs → i + inlineCount cs ≤ 10000 →
    pyReplace (inlineKey (i + k)) ('$' :: (inlineContentAt cs k ++ ['$'])) 0
      (stateRender b i bt (i + k) cs) = stateRender b i bt (i + k + 1) cs := by
  intro cs
  induction cs with
  | nil => intro b i bt k _ _ hk _; simp [inlineCount] at hk
  | cons ch cs ih =>
    intro b i bt k hwf hsep hk hi
    obtain ⟨hwf1, hwf2⟩ := allWF_cons hwf
    have hsep2 := sepOK_tail ch cs hsep
    cases ch with
    | lit s =>
      obtain ⟨-, -, hmf⟩ := chunkWF_lit hwf1
      rw [show stateRender b i bt (i + k) (Chunk.lit s :: cs) =
        s ++ stateRender b i bt (i + k) cs from rfl,
        show stateRender b i bt (i + k + 1) (Chunk.lit s :: cs) =
        s ++ stateRender b i bt (i + k + 1) cs from rfl,
        show inlineContentAt (Chunk.lit s :: cs) k = inlineContentAt cs k from rfl,
        inlineKey_shape (i + k),
        pyReplace_mathFree s _ _ _ hmf
          (headMB_state cs b i bt (i + k) (sepOK_lit_next s cs hsep)),
        ← inlineKey_shape (i + k),
        ih b i bt k hwf2 hsep2 (by simp only [inlineCount] at hk; exact hk)
          (by simp only [inlineCount] at hi; exact hi)]
    | blockM c =>
      obtain ⟨-, -, -, hmfB⟩ := chunkWF_block hwf1
      rw [show stateRender b i bt (i + k) (Chunk.blockM c :: cs) =
        (if b < bt then '$' :: '$' :: (c ++ ['$', '$']) else blockKey b) ++
          stateRender (b+1) i bt (i + k) cs from rfl,
        show stateRender b i bt (i + k + 1) (Chunk.blockM c :: cs) =
        (if b < bt then '$' :: '$' :: (c ++ ['$', '$']) else blockKey b) ++
          stateRender (b+1) i bt (i + k + 1) cs from rfl,
        show inlineContentAt (Chunk.blockM c :: cs) k = inlineContentAt cs k from rfl]
      have hk2 : k < inlineCount cs := by
        simp only [inlineCount] at hk
        exact hk
      have hi2 : i + inlineCount cs ≤ 10000 := by
        simp only [inlineCount] at hi
        exact hi
      by_cases hlt : b < bt
      · rw [if_pos hlt, inlineKey_shape (i + k), pyReplace_body c _ _ _ hmfB,
          ← inlineKey_shape (i + k), ih (b+1) i bt k hwf2 hsep2 hk2 hi2]
      · rw [if_neg hlt, passI_block (i + k) b _ _, ih (b+1) i bt k hwf2 hsep2 hk2 hi2]
    | inlineM c =>
      obtain ⟨-, -, -, hmfI⟩ := chunkWF_inline hwf1
      cases k with
      | zero =>
        have hi4 : i < 10000 := by
          simp only [inlineCount] at hi
          omega
        rw [show stateRender b i bt (i + 0) (Chunk.inlineM c :: cs) =
          (if i < i + 0 then '$' :: (c ++ ['$']) else inlineKey i) ++
            stateRender b (i+1) bt (i + 0) cs from rfl,
          if_neg (by omega),
          show inlineContentAt (Chunk.inlineM c :: cs) 0 = c from rfl,
          Nat.add_zero,
          show stateRender b i bt (i + 1) (Chunk.inlineM c :: cs) =
          (if i < i + 1 then '$' :: (c ++ ['$']) else inlineKey i) ++
            stateRender b (i+1) bt (i + 1) cs from rfl,
          if_pos (by omega),
          pyReplace_at_key (inlineKey i) _ _ (inlineKey_ne_nil i),
          restore_passed_inline cs b (i+1) bt i i _ hwf2 hsep2 (by omega) hi4
            (by simp only [inlineCount] at hi; omega),
          stateRender_it_irrel cs b (i+1) bt i (i+1) (by omega) (by omega)]
      | succ k2 =>
        rw [show stateRender b i bt (i + (k2+1)) (Chunk.inlineM c :: cs) =
          (if i < i + (k2+1) then '$' :: (c ++ ['$']) else inlineKey i) ++
            stateRender b (i+1) bt (i + (k2+1)) cs from rfl,
          if_pos (by omega),
          show stateRender b i bt (i + (k2+1) + 1) (Chunk.inlineM c :: cs) =
          (if i < i + (k2+1) + 1 then '$' :: (c ++ ['$']) else inlineKey i) ++
            stateRender b (i+1) bt (i + (k2+1) + 1) cs from rfl,
          if_pos (by omega),
          show inlineContentAt (Chunk.inlineM c :: cs) (k2+1) = inlineContentAt cs k2 from rfl,
          inlineKey_shape (i + (k2+1)),
          pyReplace_ibody c _ _ _ hmfI,
          ← inlineKey_shape (i + (k2+1))]
        have harith : i + (k2 + 1) = (i + 1) + k2 := by omega
        rw [harith,
          ih b (i+1) bt k2 hwf2 hsep2 (by simp only [inlineCount] at hk; omega)
            (by simp only [inlineCount] at hi; omega)]

/-- C1 counterexample: the codec round-trip is not the identity on every text.
On `$ $$x$$ $` the block pass replaces `$$x$$` by `MATHBLOCK0000`, after which
the inline pass matches `$ MATHBLOCK0000 $` as one inline span; restoring the
inline key first re-inserts the block key, which is never replaced again, so
the text comes back as `$ MATHBLOCK0000 $`. -/
theorem c1_roundtrip_counterexample :
    restore_math (protect_math ("$ $$x$$ $".toList)).1
      (protect_math ("$ $$x$$ $".toList)).2 ≠ "$ $$x$$ $".toList := by decide

/-- C1 (amended): the round-trip `restore_math (protect_math text)` returns the
original text for every structured math text: a chunk sequence of nonempty
literals (no `$`, no substring `MATH`), block spans `$$c$$` (`c` nonempty, no
`$$`, not ending in `$`, no `MATH`) and inline spans `$c$` (`c` nonempty, no
`$`, no newline, no `MATH`), where literals are never adjacent to literals, an
inline span is always followed by a literal, and at most 10000 spans occur.
Adjacent block spans (`$$x$$$$y$$`) are covered. -/
theorem c1_roundtrip_amended (cs : List Chunk) (h : wfChunks cs = true) :
    restore_math (protect_math (renderChunks cs)).1 (protect_math (renderChunks cs)).2 =
      renderChunks cs := by
  have h3 : blockCount cs + inlineCount cs ≤ 10000 := by
    simp only [wfChunks, Bool.and_eq_true, decide_eq_true_eq] at h
    exact h.2
  have h1 : cs.all chunkWF = true := by
    simp only [wfChunks, Bool.and_eq_true] at h
    exact h.1.1
  have h2 : sepOK cs = true := by
    simp only [wfChunks, Bool.and_eq_true] at h
    exact h.1.2
  rw [protect_math_chunks cs h1 h2]
  simp only [restore_math]
  rw [List.foldl_append, blockTable_eq cs 0, inlineTable_eq cs (blockCount cs)]
  simp only [Nat.zero_add]
  have hstep1 : ∀ j, j < blockCount cs →
      pyReplace (blockKey j) ('$' :: '$' :: (blockContentAt cs j ++ ['$', '$'])) 0
        (stateRender 0 (blockCount cs) j (blockCount cs) cs) =
      stateRender 0 (blockCount cs) (j+1) (blockCount cs) cs := by
    intro j hj
    have hh := restore_target_block cs 0 (blockCount cs) (blockCount cs) j h1 h2 hj
      (by omega) (le_refl _)
    simpa using hh
  have hfold1 := foldl_pyReplace_steps (blockCount cs) (fun j => blockKey j)
    (fun j => '$' :: '$' :: (blockContentAt cs j ++ ['$', '$']))
    (fun j => stateRender 0 (blockCount cs) j (blockCount cs) cs) hstep1
  dsimp only at hfold1
  rw [show protRender 0 (blockCount cs) cs =
      stateRender 0 (blockCount cs) 0 (blockCount cs) cs from
    (stateRender_init cs 0 (blockCount cs) (blockCount cs) (le_refl _)).symm]
  rw [hfold1]
  have hstep2 : ∀ j, j < inlineCount cs →
      pyReplace (inlineKey (blockCount cs + j))
        ('$' :: (inlineContentAt cs j ++ ['$'])) 0
        (stateRender 0 (blockCount cs) (blockCount cs) (blockCount cs + j) cs) =
      stateRender 0 (blockCount cs) (blockCount cs) (blockCount cs + j + 1) cs := by
    intro j hj
    exact restore_target_inline cs 0 (blockCount cs) (blockCount cs) j h1 h2 hj (by omega)
  have hfold2 := foldl_pyReplace_steps (inlineCount cs)
    (fun j => inlineKey (blockCount cs + j))
    (fun j => '$' :: (inlineContentAt cs j ++ ['$']))
    (fun j => stateRender 0 (blockCount cs) (blockCount cs) (blockCount cs + j) cs) hstep2
  dsimp only at hfold2
  rw [Nat.add_zero] at hfold2
  rw [hfold2, stateRender_final cs 0 (blockCount cs) (blockCount cs)
    (blockCount cs + inlineCount cs) (by omega) (by omega)]

/-- Witness for the amended C1: the structured text `a $$x$$$$y$$ and $z$ end`
(two adjacent block spans with no separating characters, one inline span)
satisfies the well-formedness predicate and round-trips. -/
theorem c1_roundtrip_amended_witness :
    wfChunks c1chunks = true ∧
    restore_math (protect_math (renderChunks c1chunks)).1
      (protect_math (renderChunks c1chunks)).2 = renderChunks c1chunks :=
  ⟨by decide, c1_roundtrip_amended c1chunks (by decide)⟩

end CCPaper
